import Mathlib

/-!
A verification development for the `fp-ts-std` modules `NonEmptyString`,
`URLPath` and `URLSearchParams`.

JavaScript strings are modelled as lists of characters (`Str`).  The WHATWG
`URL` / `URLSearchParams` platform primitives that the library wraps are
modelled ASCII-faithfully: code points at or above `0x80` are passed through
unencoded (the real parser UTF-8 percent-encodes them), input whitespace
stripping is not modelled, and only hierarchical `scheme://host[:port]/...`
references are parseable (schemes with opaque paths are conservatively mapped
to a parse failure).  None of the properties below depends on those corners.
-/

/-- JavaScript strings, modelled as lists of characters. -/
abbrev Str := List Char

/-- Convert a Lean string literal to the model's string type. -/
def strToL (s : String) : Str := s.data

/-- ASCII letter. -/
abbrev alphaP (n : Nat) : Prop := (97 ≤ n ∧ n ≤ 122) ∨ (65 ≤ n ∧ n ≤ 90)

/-- ASCII digit. -/
abbrev digitP (n : Nat) : Prop := 48 ≤ n ∧ n ≤ 57

/-- Characters admissible in a URL scheme after the first (alphanumeric and
`+` `-` `.`). -/
abbrev schemeP (n : Nat) : Prop := alphaP n ∨ digitP n ∨ n = 43 ∨ n = 45 ∨ n = 46

/-- The WHATWG fragment percent-encode set (C0 controls, DEL, space, `"`,
`<`, `>`, backtick), restricted to ASCII. -/
abbrev fragSetP (n : Nat) : Prop :=
  n < 32 ∨ n = 127 ∨ n = 32 ∨ n = 34 ∨ n = 60 ∨ n = 62 ∨ n = 96

/-- The WHATWG special-query percent-encode set (C0 controls, DEL, space,
`"`, `#`, `<`, `>`, `'`), restricted to ASCII.  `n < 33` covers the controls
and the space. -/
abbrev querySetP (n : Nat) : Prop :=
  n < 33 ∨ n = 127 ∨ n = 34 ∨ n = 35 ∨ n = 60 ∨ n = 62 ∨ n = 39

/-- The WHATWG path percent-encode set: the query set plus `?`, backtick,
`\x7b`, `\x7d`. -/
abbrev pathSetP (n : Nat) : Prop :=
  querySetP n ∨ n = 63 ∨ n = 96 ∨ n = 123 ∨ n = 125

/-- Characters that terminate the host portion of an authority:
`/` `\` `?` `#` `:`. -/
abbrev hostTermP (n : Nat) : Prop := n = 47 ∨ n = 92 ∨ n = 63 ∨ n = 35 ∨ n = 58

/-- Forbidden host code points (a host containing one fails to parse).
Beyond the WHATWG list this model also rejects `%` in hosts, a conservative
simplification of domain percent-decoding. -/
abbrev badHostP (n : Nat) : Prop :=
  n ≤ 32 ∨ n = 127 ∨ n = 64 ∨ n = 91 ∨ n = 93 ∨ n = 60 ∨ n = 62 ∨
    n = 34 ∨ n = 124 ∨ n = 94 ∨ n = 37

/-- Characters kept verbatim by `application/x-www-form-urlencoded`
serialization: alphanumerics and `*` `-` `.` `_`. -/
abbrev formKeepP (n : Nat) : Prop :=
  alphaP n ∨ digitP n ∨ n = 42 ∨ n = 45 ∨ n = 46 ∨ n = 95

/-- The alphabet of form-urlencoded *output* for a single encoded character:
the keep set, `+`, `%`, hex digits (inside the keep set already), or
pass-through non-ASCII. -/
abbrev formEncOutP (n : Nat) : Prop :=
  formKeepP n ∨ n = 43 ∨ n = 37 ∨ 128 ≤ n

/-- The alphabet of a whole form-urlencoded serialization: encoded
characters plus the `=` and `&` separators. -/
abbrev formOutP (n : Nat) : Prop := formEncOutP n ∨ n = 61 ∨ n = 38

def isAlphaCh (c : Char) : Bool := decide (alphaP c.toNat)
def isDigitCh (c : Char) : Bool := decide (digitP c.toNat)
def isSchemeCh (c : Char) : Bool := decide (schemeP c.toNat)
def inFragmentSet (c : Char) : Bool := decide (fragSetP c.toNat)
def inQuerySet (c : Char) : Bool := decide (querySetP c.toNat)
def inPathSet (c : Char) : Bool := decide (pathSetP c.toNat)
def isHostCh (c : Char) : Bool := decide (¬ hostTermP c.toNat)
def forbiddenHostCh (c : Char) : Bool := decide (badHostP c.toNat)
def formKeepCh (c : Char) : Bool := decide (formKeepP c.toNat)

/-- Uppercase hexadecimal digit for a value below 16. -/
def hexUp (n : Nat) : Char := Char.ofNat (if n < 10 then 48 + n else 55 + n)

/-- Percent-encode a single (ASCII) character as `%XY` with uppercase hex. -/
def pctEncode (c : Char) : Str := ['%', hexUp (c.toNat / 16), hexUp (c.toNat % 16)]

/-- Numeric value of a hexadecimal digit character, if any. -/
def hexVal (c : Char) : Option Nat :=
  if 48 ≤ c.toNat ∧ c.toNat ≤ 57 then some (c.toNat - 48)
  else if 65 ≤ c.toNat ∧ c.toNat ≤ 70 then some (c.toNat - 55)
  else if 97 ≤ c.toNat ∧ c.toNat ≤ 102 then some (c.toNat - 87)
  else none

/-- Lowercase an ASCII string character-wise, as `String.prototype.toLowerCase`
does for ASCII input. -/
def lowerStr (s : Str) : Str := s.map Char.toLower

/-- Take the longest Boolean-satisfying prefix together with the remainder. -/
def scanWhile (p : Char → Bool) : Str → Str × Str
  | [] => ([], [])
  | c :: cs =>
    if p c then
      let r := scanWhile p cs
      (c :: r.1, r.2)
    else ([], c :: cs)

namespace USP

/-!
## Model of `URLSearchParams` and fp-ts-std's `URLSearchParams` module

The platform `URLSearchParams` is an ordered list of key/value pairs
(`List (Str × Str)`), parsed from and serialized to the
`application/x-www-form-urlencoded` grammar.
-/

/-- `application/x-www-form-urlencoded` encoding of one character: space
becomes `+`, the keep set and (in this model) non-ASCII pass through, and
every other ASCII character is percent-encoded. -/
def formEncCh (c : Char) : Str :=
  if c.toNat = 32 then ['+']
  else if formKeepCh c || decide (128 ≤ c.toNat) then [c]
  else pctEncode c

/-- `application/x-www-form-urlencoded` encoding of a string. -/
def formEnc (s : Str) : Str := (s.map formEncCh).flatten

/-- Does the string start with a two-hex-digit escape body? -/
def validEsc : Str → Bool
  | a :: b :: _ => (hexVal a).isSome && (hexVal b).isSome
  | _ => false

/-- The value of a two-hex-digit escape body. -/
def escVal (a b : Char) : Nat := 16 * (hexVal a).getD 0 + (hexVal b).getD 0

/-- `application/x-www-form-urlencoded` decoding: `+` is a space and a `%`
followed by two hex digits is decoded; anything else (including a `%` whose
escape is malformed) passes through, decoding resuming right after it. -/
def formDec : Str → Str
  | [] => []
  | c :: rest =>
    if c.toNat = 43 then ' ' :: formDec rest
    else if c.toNat = 37 ∧ validEsc rest then
      match rest with
      | a :: b :: rest2 => Char.ofNat (escVal a b) :: formDec rest2
      | _ => []
    else c :: formDec rest

/-- Split a string at every occurrence of a separator character. -/
def splitSep (sep : Char) : Str → List Str
  | [] => [[]]
  | c :: rest =>
    if c = sep then [] :: splitSep sep rest
    else
      match splitSep sep rest with
      | [] => [[c]]
      | s :: ss => (c :: s) :: ss

/-- Break a string at the first `=`, yielding the key and value halves; a
piece without `=` is all key. -/
def breakEq : Str → Str × Str
  | [] => ([], [])
  | c :: rest =>
    if c.toNat = 61 then ([], rest)
    else
      let r := breakEq rest
      (c :: r.1, r.2)

/-- Parse a raw (already `?`-stripped) query string into ordered pairs:
split on `&`, skip empty pieces, break each piece at its first `=`, decode
both halves. -/
def parseQSRaw (s : Str) : List (Str × Str) :=
  (splitSep '&' s).filterMap fun piece =>
    if piece.isEmpty then none
    else some (formDec (breakEq piece).1, formDec (breakEq piece).2)

/-- Drop a single leading `?`, as the `URLSearchParams` constructor and the
`search` setter do. -/
def stripQm : Str → Str
  | [] => []
  | c :: rest => if c.toNat = 63 then rest else c :: rest

/-- `URLSearchParams.fromString`: the platform constructor applied to a
string. -/
def fromString (s : Str) : List (Str × Str) := parseQSRaw (stripQm s)

/-- Serialize one pair as `key=value`, form-encoded. -/
def serPair (p : Str × Str) : Str := formEnc p.1 ++ '=' :: formEnc p.2

/-- Join pieces with `&`. -/
def joinAmp : List Str → Str
  | [] => []
  | [s] => s
  | s :: rest => s ++ '&' :: joinAmp rest

/-- `URLSearchParams.toString`: form-urlencoded serialization. -/
def toString (ps : List (Str × Str)) : Str := joinAmp (ps.map serPair)

/-- Platform `getAll`: every value associated with the key, in order. -/
def getAllVals (k : Str) (ps : List (Str × Str)) : List Str :=
  (ps.filter fun p => p.1 == k).map Prod.snd

/-- `lookupFirst`: platform `get` (first match) through `O.fromNullable`. -/
def lookupFirst (k : Str) (ps : List (Str × Str)) : Option Str :=
  (getAllVals k ps).head?

/-- `lookup`: platform `getAll` through `NEA.fromArray` (absent when there
are no matches). -/
def lookup (k : Str) (ps : List (Str × Str)) : Option (List Str) :=
  match getAllVals k ps with
  | [] => none
  | v :: vs => some (v :: vs)

/-- One step of `R.fromFoldableMap` with the `NonEmptyArray` semigroup over a
JavaScript object: an existing key keeps its position and gains the new value
at the end; a fresh key is appended. -/
def recInsert (r : List (Str × List Str)) (k : Str) (v : Str) :
    List (Str × List Str) :=
  match r with
  | [] => [(k, [v])]
  | p :: rest =>
    if p.1 == k then (p.1, p.2 ++ [v]) :: rest else p :: recInsert rest k v

/-- `toRecord`: group the pairs by key, per-key values in first-to-last
encounter order. -/
def toRecord (ps : List (Str × Str)) : List (Str × List Str) :=
  ps.foldl (fun r p => recInsert r p.1 p.2) []

/-- Lookup in the association-list model of a record. -/
def recLookup (k : Str) : List (Str × List Str) → Option (List Str)
  | [] => none
  | p :: rest => if p.1 == k then some p.2 else recLookup k rest

/-- Lexicographic comparison of strings by code point, as fp-ts
`string.Ord` compares JavaScript strings. -/
def strLe : Str → Str → Bool
  | [], _ => true
  | _ :: _, [] => false
  | a :: as, b :: bs =>
    if a.toNat < b.toNat then true
    else if b.toNat < a.toNat then false
    else strLe as bs

/-- Insert into a sorted list of strings. -/
def insSorted (s : Str) : List Str → List Str
  | [] => [s]
  | t :: ts => if strLe s t then s :: t :: ts else t :: insSorted s ts

/-- Sort a list of strings by `strLe` (insertion sort). -/
def sortStrs (l : List Str) : List Str := l.foldr insSorted []

/-- Modelled from the spec: the `getDisorderedEq` helper of the library's
Array module is not among the supplied sources.  Per the overview's
order-insensitive equality and the documented example in
`src/src/URLSearchParams.ts` (lines 206-210) equating `a=1&b=2&a=3` with
`b=2&a=3&a=1`, it compares two arrays as multisets: both sides are sorted by
the supplied order and then compared pairwise. -/
def disorderedEqStrs (a b : List Str) : Bool := sortStrs a == sortStrs b

/-- fp-ts `Record.isSubrecord` over the association-list model of records,
parameterized by the value equality. -/
def isSubrecordBy (eqv : List Str → List Str → Bool)
    (r1 r2 : List (Str × List Str)) : Bool :=
  r1.all fun p =>
    match recLookup p.1 r2 with
    | some v => eqv p.2 v
    | none => false

/-- fp-ts `Record.getEq`: mutual subrecords. -/
def recEqBy (eqv : List Str → List Str → Bool)
    (r1 r2 : List (Str × List Str)) : Bool :=
  isSubrecordBy eqv r1 r2 && isSubrecordBy eqv r2 r1

/-- The module's `Eq` instance: `contramap toRecord` of the record equality
with per-key `getDisorderedEq string.Ord` values. -/
def eqEquals (x y : List (Str × Str)) : Bool :=
  recEqBy disorderedEqStrs (toRecord x) (toRecord y)

/-- The equality the spec's words describe, for comparison with `eqEquals`:
per-key value sequences compared pairwise in order (plain array equality on
the grouped record). -/
def eqBySpecSequences (x y : List (Str × Str)) : Bool :=
  recEqBy (fun a b => a == b) (toRecord x) (toRecord y)

end USP

namespace URLM

/-!
## Model of the WHATWG `URL` and of fp-ts-std's `URL` module

A parsed URL record.  `segments` is the path as its list of segments (the
`pathname` getter serializes it with a `/` before each segment); `query` and
`fragment` distinguish an absent component (`none`) from a present-but-empty
one (`some []`), exactly as the platform does: the `href` serialization keeps
a bare `?` / `#` for a present-but-empty component while the `search` /
`hash` getters drop it.
-/

structure URLRec where
  scheme : Str
  host : Str
  port : Option Nat
  segments : List Str
  query : Option Str
  fragment : Option Str
deriving DecidableEq

/-- Serialize a path: `/` before each segment. -/
def pathSer (segs : List Str) : Str := (segs.map fun s => '/' :: s).flatten

/-- Serialize the port, if recorded. -/
def portSer : Option Nat → Str
  | none => []
  | some n => ':' :: Nat.toDigits 10 n

/-- The origin serialization `scheme://host[:port]`. -/
def originStr (u : URLRec) : Str :=
  u.scheme ++ strToL "://" ++ u.host ++ portSer u.port

/-- The `pathname` getter. -/
def getPathname (u : URLRec) : Str := pathSer u.segments

/-- The `search` getter: empty when the query is absent or empty, otherwise
`?` followed by the query. -/
def searchGet (u : URLRec) : Str :=
  match u.query with
  | none => []
  | some q => if q.isEmpty then [] else '?' :: q

/-- The `hash` getter: empty when the fragment is absent or empty, otherwise
`#` followed by the fragment. -/
def hashGet (u : URLRec) : Str :=
  match u.fragment with
  | none => []
  | some f => if f.isEmpty then [] else '#' :: f

/-- The `href` serialization.  A present-but-empty query or fragment keeps
its `?` / `#` marker. -/
def href (u : URLRec) : Str :=
  originStr u ++ pathSer u.segments ++
    (match u.query with
     | none => []
     | some q => '?' :: q) ++
    (match u.fragment with
     | none => []
     | some f => '#' :: f)

/-- Is the (encoded) segment buffer a double-dot segment (`..` or a
case-insensitive `%2e` spelling)? -/
def isDoubleDotSeg (b : Str) : Bool :=
  b == strToL ".." || lowerStr b == strToL ".%2e" ||
    lowerStr b == strToL "%2e." || lowerStr b == strToL "%2e%2e"

/-- Is the (encoded) segment buffer a single-dot segment? -/
def isSingleDotSeg (b : Str) : Bool :=
  b == strToL "." || lowerStr b == strToL "%2e"

/-- WHATWG "shorten a url's path": drop the last segment, if any. -/
def shortenPath (l : List Str) : List Str := l.dropLast

/-- Close a path segment buffer at a boundary: a double-dot segment pops the
previous segment, a single-dot segment is dropped, anything else is appended;
when the boundary is not a separator (`atSep = false`, i.e. end of path), dot
segments leave a trailing empty segment. -/
def flushSeg (acc : List Str) (buf : Str) (atSep : Bool) : List Str :=
  if isDoubleDotSeg buf then
    let acc' := shortenPath acc
    if atSep then acc' else acc' ++ [[]]
  else if isSingleDotSeg buf then
    if atSep then acc else acc ++ [[]]
  else acc ++ [buf]

/-- Percent-encode a path character with the path percent-encode set. -/
def encodePathCh (c : Char) : Str := if inPathSet c then pctEncode c else [c]

/-- Percent-encode a query character with the special-query
percent-encode set. -/
def encodeQueryCh (c : Char) : Str := if inQuerySet c then pctEncode c else [c]

/-- Percent-encode a whole string with the fragment percent-encode set. -/
def fragEncodeStr (s : Str) : Str :=
  (s.map fun c => if inFragmentSet c then pctEncode c else [c]).flatten

/-- Percent-encode a whole string with the special-query percent-encode
set, as the `search` setter's query-state parse does. -/
def queryEncodeStr (s : Str) : Str := (s.map encodeQueryCh).flatten

/-- The WHATWG path state.  `/` (and `\` for special schemes) closes the
current segment buffer; when `stop` is set (plain parsing, as opposed to the
`pathname` setter's state override) `?` and `#` end the path; every other
character is percent-encoded into the buffer. -/
def pathLoop (stop : Bool) : Str → Str → List Str → List Str × Str
  | [], buf, acc => (flushSeg acc buf false, [])
  | c :: cs, buf, acc =>
    if c.toNat = 47 ∨ c.toNat = 92 then pathLoop stop cs [] (flushSeg acc buf true)
    else if stop ∧ (c.toNat = 63 ∨ c.toNat = 35) then (flushSeg acc buf false, c :: cs)
    else pathLoop stop cs (buf ++ encodePathCh c) acc

/-- The WHATWG path-start state for a special scheme: one leading separator
is consumed, then the path state runs. -/
def pathStart (stop : Bool) (cs : Str) : List Str × Str :=
  match cs with
  | [] => pathLoop stop [] [] []
  | c :: rest =>
    if c.toNat = 47 ∨ c.toNat = 92 then pathLoop stop rest [] []
    else pathLoop stop (c :: rest) [] []

/-- The `pathname` setter: empty the path and reparse the given string from
path start with a state override (`?` and `#` are ordinary, percent-encoded
path characters there). -/
def setPathSegs (x : Str) : List Str := (pathStart false x).1

/-- The WHATWG query state: accumulate percent-encoded query characters
until a `#`. -/
def queryLoop : Str → Str → Str × Str
  | [], acc => (acc, [])
  | c :: cs, acc =>
    if c.toNat = 35 then (acc, c :: cs) else queryLoop cs (acc ++ encodeQueryCh c)

/-- Default ports of the special schemes; a parsed port equal to the default
is recorded as absent. -/
def defaultPort (scheme : Str) : Option Nat :=
  if scheme == strToL "http" || scheme == strToL "ws" then some 80
  else if scheme == strToL "https" || scheme == strToL "wss" then some 443
  else if scheme == strToL "ftp" then some 21
  else none

/-- Numeric value of a digit string. -/
def digitsVal (ds : Str) : Nat := ds.foldl (fun a c => 10 * a + (c.toNat - 48)) 0

/-- The WHATWG port state: digits up to a path/query/fragment boundary; any
other character is a parse failure; an empty digit run leaves the port
absent, as does the scheme's default port; ports above 65535 fail. -/
def parsePort (scheme : Str) (cs : Str) : Option (Option Nat × Str) :=
  let ds := (scanWhile isDigitCh cs).1
  let rest := (scanWhile isDigitCh cs).2
  let ok : Bool :=
    match rest with
    | [] => true
    | c :: _ => decide (c.toNat = 47 ∨ c.toNat = 92 ∨ c.toNat = 63 ∨ c.toNat = 35)
  if ok then
    if ds.isEmpty then some (none, rest)
    else
      let n := digitsVal ds
      if n > 65535 then none
      else if defaultPort scheme == some n then some (none, rest)
      else some (some n, rest)
  else none

/-- Assemble a URL record from the path/query/fragment tail produced by
`pathStart true`: its remainder is empty or starts with `?` or `#`. -/
def assemblePQF (scheme host : Str) (port : Option Nat)
    (pr : List Str × Str) : Option URLRec :=
  match pr.2 with
  | [] => some ⟨scheme, host, port, pr.1, none, none⟩
  | c :: cs =>
    if c.toNat = 63 then
      let qr := queryLoop cs []
      match qr.2 with
      | [] => some ⟨scheme, host, port, pr.1, some qr.1, none⟩
      | _ :: fs => some ⟨scheme, host, port, pr.1, some qr.1, some (fragEncodeStr fs)⟩
    else some ⟨scheme, host, port, pr.1, none, some (fragEncodeStr cs)⟩

/-- A host is acceptable when non-empty and free of forbidden host code
points. -/
def hostOk (h : Str) : Bool := !h.isEmpty && !(h.any forbiddenHostCh)

/-- Continue a parse after the host: an optional `:port`, then path, query
and fragment. -/
def parseAfterHost (scheme host : Str) (cs : Str) : Option URLRec :=
  match cs with
  | [] => assemblePQF scheme host none (pathStart true [])
  | c :: rest =>
    if c.toNat = 58 then
      match parsePort scheme rest with
      | none => none
      | some pr => assemblePQF scheme host pr.1 (pathStart true pr.2)
    else assemblePQF scheme host none (pathStart true (c :: rest))

/-- Continue a parse after the scheme run: require `://`, scan and validate
the host, and continue. -/
def parseAfterScheme (scheme : Str) (cs : Str) : Option URLRec :=
  match cs with
  | c1 :: c2 :: c3 :: rest =>
    if c1.toNat = 58 ∧ c2.toNat = 47 ∧ c3.toNat = 47 then
      let hp := scanWhile isHostCh rest
      if hostOk hp.1 then parseAfterHost scheme hp.1 hp.2 else none
    else none
  | _ => none

/-- A scheme run is acceptable when non-empty and starting with a letter. -/
def schemeOk (sch : Str) : Bool :=
  match sch with
  | [] => false
  | c :: _ => isAlphaCh c

/-- `new URL(s)` for an absolute hierarchical reference
`scheme://host[:port]/path?query#fragment`; `none` models the thrown
`TypeError`. -/
def parseURL (s : Str) : Option URLRec :=
  let sp := scanWhile isSchemeCh s
  if schemeOk sp.1 then parseAfterScheme (lowerStr sp.1) sp.2 else none

/-- fp-ts-std `URL.parse`: `E.tryCatch` around the constructor, mapping the
`TypeError` through the caller's handler.  The error detail is modelled by
its observable `name`/`message`. -/
structure TypeErrorV where
  name : Str
  message : Str
deriving DecidableEq

def urlTypeError : TypeErrorV := ⟨strToL "TypeError", strToL "Invalid URL"⟩

def parseE {E : Type} (f : TypeErrorV → E) (s : Str) : Except E URLRec :=
  match parseURL s with
  | some u => .ok u
  | none => .error (f urlTypeError)

/-- Modelled from the spec: fp-ts-std's `URL` module (not among the supplied
sources) exposes getter/setter/modifier triples over a cloned `URL`; each
setter delegates to the corresponding platform setter on a clone.  Cloning
is observable only through mutation, which the pure model has none of, so
the clone step is the identity here.  The `pathname` setter reparses from
path start with a state override. -/
def setPathname (x : Str) (u : URLRec) : URLRec := { u with segments := setPathSegs x }

/-- The platform `search` setter: the empty string clears the query;
otherwise one leading `?` is stripped and the rest is parsed in query state
(percent-encoding the query set). -/
def setSearch (s : Str) (u : URLRec) : URLRec :=
  if s.isEmpty then { u with query := none }
  else { u with query := some (queryEncodeStr (USP.stripQm s)) }

/-- Drop a single leading `#`, as the `hash` setter does. -/
def stripHash : Str → Str
  | [] => []
  | c :: rest => if c.toNat = 35 then rest else c :: rest

/-- The platform `hash` setter: the empty string clears the fragment;
otherwise one leading `#` is stripped and the rest is parsed in fragment
state (percent-encoding the fragment set). -/
def setHash (s : Str) (u : URLRec) : URLRec :=
  if s.isEmpty then { u with fragment := none }
  else { u with fragment := some (fragEncodeStr (stripHash s)) }

/-- The `searchParams` getter: the query component parsed as
form-urlencoded pairs (no `?` stripping; the query is stored without it). -/
def getParams (u : URLRec) : List (Str × Str) :=
  match u.query with
  | none => []
  | some q => USP.parseQSRaw q

/-- fp-ts-std `URL.setParams`: overwrite the query with the serialization of
the given `URLSearchParams`, through the platform `search` setter. -/
def setParams (ps : List (Str × Str)) (u : URLRec) : URLRec :=
  setSearch (USP.toString ps) u

/-- fp-ts-std `URL.getHash` is the `hash` getter. -/
def getHash (u : URLRec) : Str := hashGet u

/-- fp-ts-std's `URL.Eq` compares the serialized `href` forms. -/
def eqEquals (a b : URLRec) : Bool := href a == href b

/-- A character the path state passes through untouched: not in the path
percent-encode set and not a separator. -/
def goodSegCh (c : Char) : Bool :=
  decide (¬ pathSetP c.toNat ∧ c.toNat ≠ 47 ∧ c.toNat ≠ 92)

/-- A character the query state passes through untouched. -/
def goodQueryCh (c : Char) : Bool := decide (¬ querySetP c.toNat)

/-- A character the fragment state passes through untouched. -/
def goodFragCh (c : Char) : Bool := decide (¬ fragSetP c.toNat)

/-- Well-formedness of one parsed path segment: every character passes
through the path state untouched (so in particular no `/` `\` `?` `#`), and
the segment is not a dot segment.  Every segment the path state produces has
this shape. -/
def wfSeg (s : Str) : Bool :=
  s.all goodSegCh && !isDoubleDotSeg s && !isSingleDotSeg s

/-- Well-formedness of a parsed path: non-empty and segment-wise
well-formed. -/
def wfSegs (l : List Str) : Bool := !l.isEmpty && l.all wfSeg

/-- Well-formedness of a query component: nothing from the query
percent-encode set (so in particular no raw `#`). -/
def wfQuery : Option Str → Bool
  | none => true
  | some q => q.all goodQueryCh

/-- Well-formedness of a fragment component: nothing from the fragment
percent-encode set. -/
def wfFrag : Option Str → Bool
  | none => true
  | some f => f.all goodFragCh

end URLM

namespace URLPath

/-!
## Model of fp-ts-std's `URLPath` module

A `URLPath` is a newtype around `URL`; the newtype wrapper (`pack` /
`unpack` / `over` from the library's Newtype module) is representationally
the identity and is erased here, so the operations act on `URLM.URLRec`
directly.
-/

/-- The fixed placeholder origin `https://urlpath.fp-ts-std.samhh.com`,
parsed: empty path (one empty segment), no query, no fragment. -/
def phonyBase : URLM.URLRec :=
  ⟨strToL "https", strToL "urlpath.fp-ts-std.samhh.com", none, [[]], none, none⟩

/-- The placeholder origin's serialization. -/
def phonyOriginStr : Str := strToL "https://urlpath.fp-ts-std.samhh.com"

/-- `hasPhonyBase`: does the URL's origin equal the placeholder origin? -/
def hasPhonyBase (u : URLM.URLRec) : Bool := URLM.originStr u == phonyOriginStr

/-- `fromString` before the infallible-by-construction `getOrElse`: try
`new URL(origin ++ x)` and keep it only when it still has the placeholder
origin; otherwise fall back to `new URL(origin ++ "/" ++ x)`.  The `none`
result models the fallback constructor throwing, which `urlpath_fromString_total`
proves never happens. -/
def fromStringO (x : Str) : Option URLM.URLRec :=
  match URLM.parseURL (phonyOriginStr ++ x) with
  | some u =>
    if hasPhonyBase u then some u
    else URLM.parseURL (phonyOriginStr ++ '/' :: x)
  | none => URLM.parseURL (phonyOriginStr ++ '/' :: x)

/-- `fromString`, total as in the source (where the fallback constructor's
success is implicit). -/
def fromString (x : Str) : URLM.URLRec := (fromStringO x).getD phonyBase

/-- `fromPathname`: clone the placeholder base and run the `pathname`
setter. -/
def fromPathname (x : Str) : URLM.URLRec := URLM.setPathname x phonyBase

/-- `toString`: pathname ++ search ++ hash (getter forms). -/
def toString (u : URLM.URLRec) : Str :=
  URLM.getPathname u ++ URLM.searchGet u ++ URLM.hashGet u

/-- `getPathname` on a `URLPath`. -/
def getPathname (u : URLM.URLRec) : Str := URLM.getPathname u

/-- `setPathname` on a `URLPath` (over the URL setter). -/
def setPathname (x : Str) (u : URLM.URLRec) : URLM.URLRec := URLM.setPathname x u

/-- `getParams` on a `URLPath`. -/
def getParams (u : URLM.URLRec) : List (Str × Str) := URLM.getParams u

/-- `setParams` on a `URLPath`. -/
def setParams (ps : List (Str × Str)) (u : URLM.URLRec) : URLM.URLRec :=
  URLM.setParams ps u

/-- `getHash` on a `URLPath`. -/
def getHash (u : URLM.URLRec) : Str := URLM.getHash u

/-- `setHash` on a `URLPath`. -/
def setHash (s : Str) (u : URLM.URLRec) : URLM.URLRec := URLM.setHash s u

/-- `toURL`: parse the base; on success overwrite pathname, then params,
then hash from the path value. -/
def toURL {E : Type} (f : URLM.TypeErrorV → E) (baseUrl : Str)
    (x : URLM.URLRec) : Except E URLM.URLRec :=
  (URLM.parseE f baseUrl).map fun b =>
    URLM.setHash (getHash x) (URLM.setParams (getParams x) (URLM.setPathname (getPathname x) b))

/-- The `Eq` instance: `contramap unpack` of `URL.Eq` (href comparison). -/
def eqEquals (a b : URLM.URLRec) : Bool := URLM.eqEquals a b

/-- The representation invariant every constructor of the module
establishes: placeholder scheme/host, no port, and normalized, stable
components. -/
def wfURLPathRep (u : URLM.URLRec) : Bool :=
  u.scheme == strToL "https" &&
    u.host == strToL "urlpath.fp-ts-std.samhh.com" &&
    u.port == none && URLM.wfSegs u.segments && URLM.wfQuery u.query &&
    URLM.wfFrag u.fragment

end URLPath

namespace NES

/-!
## Model of fp-ts-std's `NonEmptyString` module

The newtype wrapper (`pack` / `unpack` / `over` from the library's Newtype
module) is representationally the identity and is erased here, so the
operations act on `Str` directly; non-emptiness is a hypothesis rather than
part of the type.
-/

/-- `fromString`: `O.fromPredicate (not string.isEmpty)` then `pack`. -/
def fromString (s : Str) : Option Str := if s.isEmpty then none else some s

/-- Modelled from the spec: fp-ts-std's String module is not among the
supplied sources; per the spec, `head` returns the first character of a
non-empty string and is absent on the empty string. -/
def strHead : Str → Option Str
  | [] => none
  | c :: _ => some [c]

/-- Modelled from the spec: `last` returns the final character of a
non-empty string and is absent on the empty string. -/
def strLast (s : Str) : Option Str :=
  match s.getLast? with
  | none => none
  | some c => some [c]

/-- Modelled from the spec: `String.prepend`. -/
def prepend (x s : Str) : Str := x ++ s

/-- Modelled from the spec: `String.append`. -/
def append (x s : Str) : Str := s ++ x

/-- Modelled from the spec: `String.surround x = prepend x >>> append x`. -/
def surround (x s : Str) : Str := (x ++ s) ++ x

/-- `String.prototype.toUpperCase`, character-wise for ASCII. -/
def toUpperCase (s : Str) : Str := s.map Char.toUpper

/-- `String.prototype.toLowerCase`, character-wise for ASCII. -/
def toLowerCase (s : Str) : Str := s.map Char.toLower

/-- Modelled from the spec: `String.reverse`. -/
def reverse (s : Str) : Str := s.reverse

/-- The `Semigroup` instance: string concatenation. -/
def concat (x y : Str) : Str := x ++ y

/-- Lowercase hexadecimal digit for a value below 16. -/
def hexLow (n : Nat) : Char := Char.ofNat (if n < 10 then 48 + n else 87 + n)

/-- JSON escaping of one character, as `JSON.stringify` performs it:
`"` and `\` are backslash-escaped, the named control escapes are used where
they exist, other control characters become `\u00XY`, and everything else
passes through. -/
def jsonEscCh (c : Char) : Str :=
  if c.toNat = 34 then ['\\', '"']
  else if c.toNat = 92 then ['\\', '\\']
  else if c.toNat = 8 then ['\\', 'b']
  else if c.toNat = 9 then ['\\', 't']
  else if c.toNat = 10 then ['\\', 'n']
  else if c.toNat = 12 then ['\\', 'f']
  else if c.toNat = 13 then ['\\', 'r']
  else if c.toNat < 32 then
    ['\\', 'u', '0', '0', hexLow (c.toNat / 16), hexLow (c.toNat % 16)]
  else [c]

/-- `JSON.stringify` on a string: the escaped characters wrapped in double
quotes. -/
def jsonStringify (s : Str) : Str := '"' :: (s.map jsonEscCh).flatten ++ ['"']

/-- The `Show` instance: `flow(unNonEmptyString, string.Show.show)`, where
fp-ts v2.16's `string.Show.show` is `JSON.stringify`. -/
def showNES (s : Str) : Str := jsonStringify s

end NES

/-!
## Supporting lemmas
-/

theorem scanWhile_all_append (p : Char → Bool) (a b : Str)
    (ha : ∀ c ∈ a, p c = true)
    (hb : b = [] ∨ ∃ c cs, b = c :: cs ∧ p c = false) :
    scanWhile p (a ++ b) = (a, b) := by
  induction a with
  | nil =>
    simp only [List.nil_append]
    rcases hb with rfl | ⟨c, cs, rfl, hc⟩
    · rfl
    · simp [scanWhile, hc]
  | cons c cs ih =>
    have hc : p c = true := ha c (by simp)
    simp only [List.cons_append, scanWhile, hc, if_true, List.append_eq]
    rw [ih (fun x hx => ha x (by simp [hx]))]

theorem goodSegCh_not_sep {c : Char} (h : URLM.goodSegCh c = true) :
    ¬ (c.toNat = 47 ∨ c.toNat = 92) := by
  have h2 := of_decide_eq_true h
  omega

theorem goodSegCh_not_end {c : Char} (h : URLM.goodSegCh c = true) :
    ¬ (c.toNat = 63 ∨ c.toNat = 35) := by
  have h2 := of_decide_eq_true h
  omega

theorem encodePathCh_good {c : Char} (h : URLM.goodSegCh c = true) :
    URLM.encodePathCh c = [c] := by
  have h2 := of_decide_eq_true h
  simp [URLM.encodePathCh, inPathSet, h2.1]

theorem flushSeg_wf (acc : List Str) (s : Str) (atSep : Bool)
    (hs : URLM.wfSeg s = true) :
    URLM.flushSeg acc s atSep = acc ++ [s] := by
  simp only [URLM.wfSeg, Bool.and_eq_true, Bool.not_eq_true'] at hs
  simp [URLM.flushSeg, hs.1.2, hs.2]

theorem pathLoop_seg (stop : Bool) (s rest buf : Str) (acc : List Str)
    (hs : ∀ c ∈ s, URLM.goodSegCh c = true) :
    URLM.pathLoop stop (s ++ rest) buf acc = URLM.pathLoop stop rest (buf ++ s) acc := by
  induction s generalizing buf with
  | nil => simp
  | cons c cs ih =>
    have hc := hs c (by simp)
    have h1 := goodSegCh_not_sep hc
    have h2 := goodSegCh_not_end hc
    simp only [List.cons_append, URLM.pathLoop, h1, if_false,
      encodePathCh_good hc, List.append_eq]
    rw [if_neg (by rintro ⟨_, h⟩; exact h2 h)]
    rw [ih _ (fun x hx => hs x (by simp [hx]))]
    simp

theorem pathSer_cons (t : Str) (ts : List Str) :
    URLM.pathSer (t :: ts) = ('/' :: t) ++ URLM.pathSer ts := by
  simp [URLM.pathSer]

theorem wfSeg_all {s : Str} (hs : URLM.wfSeg s = true) :
    ∀ c ∈ s, URLM.goodSegCh c = true := by
  simp only [URLM.wfSeg, Bool.and_eq_true, List.all_eq_true] at hs
  exact hs.1.1

theorem pathLoop_stable (stop : Bool) (ss : List Str) (s : Str)
    (acc : List Str) (tail : Str)
    (hs : URLM.wfSeg s = true) (hss : ∀ t ∈ ss, URLM.wfSeg t = true)
    (ht : tail = [] ∨
      ∃ c cs, tail = c :: cs ∧ stop = true ∧ (c.toNat = 63 ∨ c.toNat = 35)) :
    URLM.pathLoop stop (s ++ URLM.pathSer ss ++ tail) [] acc =
      (acc ++ s :: ss, tail) := by
  induction ss generalizing s acc with
  | nil =>
    simp only [URLM.pathSer, List.map_nil, List.flatten_nil, List.append_nil]
    rw [pathLoop_seg stop s tail [] acc (wfSeg_all hs)]
    rcases ht with rfl | ⟨c, cs, rfl, hstop, hc⟩
    · simp [URLM.pathLoop, flushSeg_wf _ _ _ hs]
    · subst hstop
      have hsep : ¬ (c.toNat = 47 ∨ c.toNat = 92) := by omega
      simp [URLM.pathLoop, hsep, hc, flushSeg_wf _ _ _ hs]
  | cons t ts ih =>
    rw [pathSer_cons]
    have harr : s ++ (('/' :: t) ++ URLM.pathSer ts) ++ tail =
        s ++ ('/' :: (t ++ URLM.pathSer ts ++ tail)) := by
      simp [List.append_assoc]
    rw [harr, pathLoop_seg stop s _ [] acc (wfSeg_all hs)]
    have h47 : ('/' : Char).toNat = 47 ∨ ('/' : Char).toNat = 92 := by decide
    simp only [URLM.pathLoop, h47, if_true, List.nil_append, List.append_eq]
    rw [flushSeg_wf _ _ _ hs,
      ih t (acc ++ [s]) (hss t (by simp)) (fun x hx => hss x (by simp [hx]))]
    simp

theorem pathLoop_rest (x buf : Str) (acc : List Str) :
    (URLM.pathLoop true x buf acc).2 = [] ∨
      ∃ c cs, (URLM.pathLoop true x buf acc).2 = c :: cs ∧
        (c.toNat = 63 ∨ c.toNat = 35) := by
  induction x generalizing buf acc with
  | nil => left; rfl
  | cons c cs ih =>
    by_cases h1 : c.toNat = 47 ∨ c.toNat = 92
    · simpa [URLM.pathLoop, h1] using ih [] (URLM.flushSeg acc buf true)
    · by_cases h2 : c.toNat = 63 ∨ c.toNat = 35
      · right
        exact ⟨c, cs, by simp [URLM.pathLoop, h1, h2], h2⟩
      · have : ¬ (True ∧ (c.toNat = 63 ∨ c.toNat = 35)) := by simpa using h2
        simpa [URLM.pathLoop, h1, h2] using ih (buf ++ URLM.encodePathCh c) acc

theorem goodQueryCh_not_hash {c : Char} (h : URLM.goodQueryCh c = true) :
    c.toNat ≠ 35 := by
  have h2 := of_decide_eq_true h
  omega

theorem encodeQueryCh_good {c : Char} (h : URLM.goodQueryCh c = true) :
    URLM.encodeQueryCh c = [c] := by
  have h2 := of_decide_eq_true h
  simp [URLM.encodeQueryCh, inQuerySet, h2]

theorem queryLoop_stable (q tail acc : Str)
    (hq : ∀ c ∈ q, URLM.goodQueryCh c = true)
    (ht : tail = [] ∨ ∃ cs, tail = '#' :: cs) :
    URLM.queryLoop (q ++ tail) acc = (acc ++ q, tail) := by
  induction q generalizing acc with
  | nil =>
    rcases ht with rfl | ⟨cs, rfl⟩
    · simp [URLM.queryLoop]
    · simp [URLM.queryLoop]
  | cons c cs ih =>
    have hc := hq c (by simp)
    simp only [List.cons_append, URLM.queryLoop, goodQueryCh_not_hash hc,
      if_false, encodeQueryCh_good hc, List.append_eq]
    rw [ih _ (fun x hx => hq x (by simp [hx]))]
    simp

theorem fragEncodeStr_cons (c : Char) (cs : Str) :
    URLM.fragEncodeStr (c :: cs) =
      (if inFragmentSet c then pctEncode c else [c]) ++ URLM.fragEncodeStr cs := by
  simp [URLM.fragEncodeStr]

theorem fragEncodeStr_id (f : Str) (hf : ∀ c ∈ f, URLM.goodFragCh c = true) :
    URLM.fragEncodeStr f = f := by
  induction f with
  | nil => rfl
  | cons c cs ih =>
    have hc : inFragmentSet c = false := by
      have h2 := of_decide_eq_true (hf c (by simp))
      simpa [inFragmentSet] using h2
    rw [fragEncodeStr_cons, hc, if_neg (by simp), ih (fun x hx => hf x (by simp [hx]))]
    rfl

theorem parseURL_phonySlash (rest : Str) :
    URLM.parseURL (URLPath.phonyOriginStr ++ '/' :: rest) =
      URLM.assemblePQF (strToL "https") (strToL "urlpath.fp-ts-std.samhh.com") none
        (URLM.pathLoop true rest [] []) := by
  have hsplit : URLPath.phonyOriginStr ++ '/' :: rest =
      strToL "https" ++ (':' :: '/' :: '/' ::
        (strToL "urlpath.fp-ts-std.samhh.com" ++ '/' :: rest)) := by
    have h0 : URLPath.phonyOriginStr =
        strToL "https" ++ (':' :: '/' :: '/' ::
          strToL "urlpath.fp-ts-std.samhh.com") := by decide
    rw [h0]
    simp [List.append_assoc]
  rw [hsplit]
  simp only [URLM.parseURL]
  rw [scanWhile_all_append isSchemeCh (strToL "https") _ (by decide)
    (Or.inr ⟨':', _, rfl, by decide⟩)]
  simp only []
  rw [if_pos (by decide : URLM.schemeOk (strToL "https") = true)]
  rw [show lowerStr (strToL "https") = strToL "https" from by decide]
  simp only [URLM.parseAfterScheme]
  rw [if_pos (by decide :
    (':' : Char).toNat = 58 ∧ ('/' : Char).toNat = 47 ∧ ('/' : Char).toNat = 47)]
  rw [scanWhile_all_append isHostCh (strToL "urlpath.fp-ts-std.samhh.com") _
    (by decide) (Or.inr ⟨'/', _, rfl, by decide⟩)]
  simp only []
  rw [if_pos (by decide : URLM.hostOk (strToL "urlpath.fp-ts-std.samhh.com") = true)]
  simp only [URLM.parseAfterHost]
  rw [if_neg (by decide : ¬ ('/' : Char).toNat = 58)]
  simp only [URLM.pathStart]
  rw [if_pos (by decide : ('/' : Char).toNat = 47 ∨ ('/' : Char).toNat = 92)]

theorem assemblePQF_some (scheme host : Str) (port : Option Nat)
    (pr : List Str × Str) :
    ∃ u, URLM.assemblePQF scheme host port pr = some u ∧
      u.scheme = scheme ∧ u.host = host ∧ u.port = port := by
  obtain ⟨segs, rest⟩ := pr
  cases rest with
  | nil => exact ⟨_, rfl, rfl, rfl, rfl⟩
  | cons c cs =>
    by_cases hc : c.toNat = 63
    · cases hq : (URLM.queryLoop cs []).2 with
      | nil =>
        exact ⟨⟨scheme, host, port, segs, some (URLM.queryLoop cs []).1, none⟩,
          by simp [URLM.assemblePQF, hc, hq], rfl, rfl, rfl⟩
      | cons d ds =>
        exact ⟨⟨scheme, host, port, segs, some (URLM.queryLoop cs []).1,
          some (URLM.fragEncodeStr ds)⟩,
          by simp [URLM.assemblePQF, hc, hq], rfl, rfl, rfl⟩
    · exact ⟨⟨scheme, host, port, segs, none, some (URLM.fragEncodeStr cs)⟩,
        by simp [URLM.assemblePQF, hc], rfl, rfl, rfl⟩

theorem fallback_parses (x : Str) :
    ∃ u, URLM.parseURL (URLPath.phonyOriginStr ++ '/' :: x) = some u ∧
      URLM.originStr u = URLPath.phonyOriginStr := by
  rw [parseURL_phonySlash]
  obtain ⟨u, hu, h1, h2, h3⟩ := assemblePQF_some _ _ _ _
  refine ⟨u, hu, ?_⟩
  simp only [URLM.originStr, h1, h2, h3]
  decide

theorem fromStringO_roundtrip (u : URLM.URLRec)
    (h : URLPath.wfURLPathRep u = true)
    (hq : u.query ≠ some []) (hf : u.fragment ≠ some []) :
    URLPath.fromStringO (URLPath.toString u) = some u := by
  obtain ⟨sch, host, port, segs, q, f⟩ := u
  simp only [URLPath.wfURLPathRep, Bool.and_eq_true, beq_iff_eq] at h
  obtain ⟨⟨⟨⟨⟨hsch, hhost⟩, hport⟩, hsegs⟩, hquery⟩, hfrag⟩ := h
  subst hsch hhost hport
  cases segs with
  | nil => simp [URLM.wfSegs] at hsegs
  | cons s ss =>
  simp only [URLM.wfSegs, Bool.and_eq_true, Bool.not_eq_true',
    List.all_eq_true] at hsegs
  obtain ⟨-, hall⟩ := hsegs
  have hs : URLM.wfSeg s = true := hall s (by simp)
  have hss : ∀ t ∈ ss, URLM.wfSeg t = true := fun t ht => hall t (by simp [ht])
  have hkey : URLM.parseURL (URLPath.phonyOriginStr ++ URLPath.toString
      ⟨strToL "https", strToL "urlpath.fp-ts-std.samhh.com", none, s :: ss, q, f⟩) =
      some ⟨strToL "https", strToL "urlpath.fp-ts-std.samhh.com", none,
        s :: ss, q, f⟩ := by
    have hHGshape : (f = none ∧ URLM.hashGet ⟨strToL "https",
        strToL "urlpath.fp-ts-std.samhh.com", none, s :: ss, q, f⟩ = []) ∨
        (∃ fv, f = some fv ∧ fv ≠ [] ∧ URLM.hashGet ⟨strToL "https",
          strToL "urlpath.fp-ts-std.samhh.com", none, s :: ss, q, f⟩ = '#' :: fv) := by
      rcases f with _ | fv
      · exact Or.inl ⟨rfl, by simp [URLM.hashGet]⟩
      · have hfv : fv ≠ [] := fun hemp => hf (by rw [hemp])
        refine Or.inr ⟨fv, rfl, hfv, ?_⟩
        cases fv with
        | nil => exact absurd rfl hfv
        | cons a as => simp [URLM.hashGet]
    rcases q with _ | qv
    · have hSGnil : URLM.searchGet ⟨strToL "https",
          strToL "urlpath.fp-ts-std.samhh.com", none, s :: ss, none, f⟩ = [] := by
        simp [URLM.searchGet]
      rcases hHGshape with ⟨hfe, hHGnil⟩ | ⟨fv, hfeq, hfv, hHGv⟩
      · subst hfe
        have harr : URLPath.phonyOriginStr ++ URLPath.toString
            ⟨strToL "https", strToL "urlpath.fp-ts-std.samhh.com", none,
              s :: ss, none, none⟩ =
            URLPath.phonyOriginStr ++ '/' :: (s ++ URLM.pathSer ss ++ []) := by
          simp [URLPath.toString, URLM.getPathname, pathSer_cons,
            List.append_assoc, hSGnil, URLM.hashGet]
        rw [harr, parseURL_phonySlash,
          pathLoop_stable true ss s [] [] hs hss (Or.inl rfl)]
        simp [URLM.assemblePQF]
      · subst hfeq
        have harr : URLPath.phonyOriginStr ++ URLPath.toString
            ⟨strToL "https", strToL "urlpath.fp-ts-std.samhh.com", none,
              s :: ss, none, some fv⟩ =
            URLPath.phonyOriginStr ++ '/' :: (s ++ URLM.pathSer ss ++ ('#' :: fv)) := by
          simp [URLPath.toString, URLM.getPathname, pathSer_cons,
            List.append_assoc, hSGnil, hHGv]
        rw [harr, parseURL_phonySlash,
          pathLoop_stable true ss s [] ('#' :: fv) hs hss
            (Or.inr ⟨'#', fv, rfl, rfl, by decide⟩)]
        have hfall : ∀ c ∈ fv, URLM.goodFragCh c = true := by
          simpa [URLM.wfFrag, List.all_eq_true] using hfrag
        simp [URLM.assemblePQF, fragEncodeStr_id fv hfall]
    · have hqv : qv ≠ [] := fun hemp => hq (by rw [hemp])
      have hSGv : URLM.searchGet ⟨strToL "https",
          strToL "urlpath.fp-ts-std.samhh.com", none, s :: ss, some qv, f⟩ =
          '?' :: qv := by
        cases qv with
        | nil => exact absurd rfl hqv
        | cons a as => simp [URLM.searchGet]
      have hqall : ∀ c ∈ qv, URLM.goodQueryCh c = true := by
        simpa [URLM.wfQuery, List.all_eq_true] using hquery
      rcases hHGshape with ⟨hfe, hHGnil⟩ | ⟨fv, hfeq, hfv, hHGv⟩
      · subst hfe
        have harr : URLPath.phonyOriginStr ++ URLPath.toString
            ⟨strToL "https", strToL "urlpath.fp-ts-std.samhh.com", none,
              s :: ss, some qv, none⟩ =
            URLPath.phonyOriginStr ++ '/' ::
              (s ++ URLM.pathSer ss ++ ('?' :: (qv ++ []))) := by
          simp [URLPath.toString, URLM.getPathname, pathSer_cons,
            List.append_assoc, hSGv, URLM.hashGet]
        rw [harr, parseURL_phonySlash,
          pathLoop_stable true ss s [] ('?' :: (qv ++ [])) hs hss
            (Or.inr ⟨'?', qv ++ [], rfl, rfl, by decide⟩)]
        simp only [URLM.assemblePQF]
        rw [if_pos (by decide : ('?' : Char).toNat = 63),
          queryLoop_stable qv [] [] hqall (Or.inl rfl)]
        simp
      · subst hfeq
        have harr : URLPath.phonyOriginStr ++ URLPath.toString
            ⟨strToL "https", strToL "urlpath.fp-ts-std.samhh.com", none,
              s :: ss, some qv, some fv⟩ =
            URLPath.phonyOriginStr ++ '/' ::
              (s ++ URLM.pathSer ss ++ ('?' :: (qv ++ '#' :: fv))) := by
          simp [URLPath.toString, URLM.getPathname, pathSer_cons,
            List.append_assoc, hSGv, hHGv]
        rw [harr, parseURL_phonySlash,
          pathLoop_stable true ss s [] ('?' :: (qv ++ '#' :: fv)) hs hss
            (Or.inr ⟨'?', qv ++ '#' :: fv, rfl, rfl, by decide⟩)]
        simp only [URLM.assemblePQF]
        rw [if_pos (by decide : ('?' : Char).toNat = 63),
          queryLoop_stable qv ('#' :: fv) [] hqall (Or.inr ⟨fv, rfl⟩)]
        have hfall : ∀ c ∈ fv, URLM.goodFragCh c = true := by
          simpa [URLM.wfFrag, List.all_eq_true] using hfrag
        simp [fragEncodeStr_id fv hfall]
  have hpb : URLPath.hasPhonyBase ⟨strToL "https",
      strToL "urlpath.fp-ts-std.samhh.com", none, s :: ss, q, f⟩ = true := by
    simp only [URLPath.hasPhonyBase, URLM.originStr]
    decide
  simp [URLPath.fromStringO, hkey, hpb]

/-!
## Claim theorems
-/

/-- C1 (amended): for every `URLPath` value — a URL record with the
placeholder scheme/host, no port, and constructor-normalized path, query and
fragment components — *whose query and fragment are not present-but-empty*,
`fromString (toString x)` is equivalent to `x` under the `URLPath` `Eq`
instance.  The exclusion is forced by `c1_urlpath_roundtrip_cex`: a bare
trailing `?` or `#` survives in the underlying URL (and hence in the
href-comparing `Eq`) but is dropped by `toString`. -/
theorem c1_urlpath_roundtrip_amended (u : URLM.URLRec)
    (h : URLPath.wfURLPathRep u = true)
    (hq : u.query ≠ some []) (hf : u.fragment ≠ some []) :
    URLPath.eqEquals (URLPath.fromString (URLPath.toString u)) u = true := by
  have hr := fromStringO_roundtrip u h hq hf
  simp [URLPath.fromString, hr, URLPath.eqEquals, URLM.eqEquals]

/-- C1 counterexample: `x = fromString "/foo?"` is a `URLPath` value whose
underlying URL records a present-but-empty query, so its href ends in `?`;
`toString x` is `"/foo"` and reparsing loses the marker, refuting the
round-trip claim as stated. -/
theorem c1_urlpath_roundtrip_cex :
    URLPath.eqEquals
      (URLPath.fromString (URLPath.toString (URLPath.fromString (strToL "/foo?"))))
      (URLPath.fromString (strToL "/foo?")) = false := by decide

/-- C1 witness: the amended round-trip law at the concrete value
`fromString "/a/b?x=1#y"`. -/
theorem c1_urlpath_roundtrip_witness :
    URLPath.eqEquals (URLPath.fromString (URLPath.toString
      (URLPath.fromString (strToL "/a/b?x=1#y"))))
      (URLPath.fromString (strToL "/a/b?x=1#y")) = true :=
  c1_urlpath_roundtrip_amended _ (by decide) (by decide) (by decide)

/-- C2: `URLPath.fromString` is total — the optional model result is always
present, i.e. the implicit fallback constructor never throws — and the
result always carries the placeholder origin; moreover when the first
resolution fails to parse, or parses but escapes to a different origin, the
input is re-resolved as a root-relative pathname with a `/` prefixed. -/
theorem c2_fromString_total (x : Str) :
    (URLPath.fromStringO x).isSome = true ∧
      URLM.originStr (URLPath.fromString x) = URLPath.phonyOriginStr ∧
      (URLM.parseURL (URLPath.phonyOriginStr ++ x) = none →
        URLPath.fromStringO x =
          URLM.parseURL (URLPath.phonyOriginStr ++ '/' :: x)) ∧
      (∀ u, URLM.parseURL (URLPath.phonyOriginStr ++ x) = some u →
        URLM.originStr u ≠ URLPath.phonyOriginStr →
        URLPath.fromStringO x =
          URLM.parseURL (URLPath.phonyOriginStr ++ '/' :: x)) := by
  obtain ⟨w, hw, hworig⟩ := fallback_parses x
  rcases hp : URLM.parseURL (URLPath.phonyOriginStr ++ x) with _ | u
  · refine ⟨?_, ?_, fun _ => ?_, fun u hu => absurd hu (by simp [hp])⟩
    · simp [URLPath.fromStringO, hp, hw]
    · simp [URLPath.fromString, URLPath.fromStringO, hp, hw, hworig]
    · simp [URLPath.fromStringO, hp]
  · by_cases hb : URLPath.hasPhonyBase u = true
    · have horig : URLM.originStr u = URLPath.phonyOriginStr := by
        simpa [URLPath.hasPhonyBase, beq_iff_eq] using hb
      refine ⟨?_, ?_, fun hnone => by simp [hp] at hnone, fun v hv hne => ?_⟩
      · simp [URLPath.fromStringO, hp, hb]
      · simp [URLPath.fromString, URLPath.fromStringO, hp, hb, horig]
      · cases hv
        exact absurd horig hne
    · refine ⟨?_, ?_, fun hnone => by simp [hp] at hnone, fun v hv hne => ?_⟩
      · simp [URLPath.fromStringO, hp, hb, hw]
      · simp [URLPath.fromString, URLPath.fromStringO, hp, hb, hw, hworig]
      · simp [URLPath.fromStringO, hp, hb]

/-- C2 witness: at `":123"` the first resolution parses with port 123 and so
a different origin, forcing the `/`-prefixed re-resolution; the result is
present either way. -/
theorem c2_fromString_total_witness :
    (URLPath.fromStringO (strToL ":123")).isSome = true ∧
      URLPath.fromStringO (strToL ":123") =
        URLM.parseURL (URLPath.phonyOriginStr ++ '/' :: strToL ":123") :=
  ⟨(c2_fromString_total (strToL ":123")).1,
   (c2_fromString_total (strToL ":123")).2.2.2
     ⟨strToL "https", strToL "urlpath.fp-ts-std.samhh.com", some 123,
       [[]], none, none⟩
     (by decide) (by decide)⟩

/-- C7: `setPathname y (fromPathname x) = fromPathname y` — setting the
pathname fully overwrites the previous pathname, leaving query and fragment
empty exactly as a fresh `fromPathname` construction does; the two are equal
as URL records and hence under the `Eq` instance. -/
theorem c7_setPathname_fromPathname (x y : Str) :
    URLPath.setPathname y (URLPath.fromPathname x) = URLPath.fromPathname y ∧
      URLPath.eqEquals (URLPath.setPathname y (URLPath.fromPathname x))
        (URLPath.fromPathname y) = true := by
  refine ⟨rfl, ?_⟩
  show URLPath.eqEquals (URLPath.fromPathname y) (URLPath.fromPathname y) = true
  simp [URLPath.eqEquals, URLM.eqEquals]

theorem getAllVals_cons (k : Str) (p : Str × Str) (ps : List (Str × Str)) :
    USP.getAllVals k (p :: ps) =
      if p.1 == k then p.2 :: USP.getAllVals k ps else USP.getAllVals k ps := by
  by_cases h : (p.1 == k) = true
  · simp [USP.getAllVals, List.filter_cons, h]
  · simp [USP.getAllVals, List.filter_cons, h]

theorem recLookup_recInsert_same (r : List (Str × List Str)) (k : Str) (v : Str) :
    USP.recLookup k (USP.recInsert r k v) =
      some ((USP.recLookup k r).getD [] ++ [v]) := by
  induction r with
  | nil => simp [USP.recInsert, USP.recLookup]
  | cons p rest ih =>
    by_cases hpk : (p.1 == k) = true
    · simp [USP.recInsert, USP.recLookup, hpk]
    · simp [USP.recInsert, USP.recLookup, hpk, ih]

theorem recLookup_recInsert_other (r : List (Str × List Str)) (k k' : Str)
    (v : Str) (h : (k' == k) = false) :
    USP.recLookup k (USP.recInsert r k' v) = USP.recLookup k r := by
  induction r with
  | nil => simp [USP.recInsert, USP.recLookup, h]
  | cons p rest ih =>
    by_cases hpk : (p.1 == k') = true
    · have hpknot : (p.1 == k) = false := by
        have h1 : p.1 = k' := by simpa [beq_iff_eq] using hpk
        have h2 : k' ≠ k := by simpa [beq_iff_eq] using h
        simp [beq_iff_eq, h1, h2]
      simp [USP.recInsert, USP.recLookup, hpk, hpknot]
    · simp [USP.recInsert, USP.recLookup, hpk, ih]

theorem recLookup_foldl_some (ps : List (Str × Str))
    (r : List (Str × List Str)) (k : Str) (vs : List Str)
    (h : USP.recLookup k r = some vs) :
    USP.recLookup k (ps.foldl (fun r p => USP.recInsert r p.1 p.2) r) =
      some (vs ++ USP.getAllVals k ps) := by
  induction ps generalizing r vs with
  | nil => simpa [USP.getAllVals] using h
  | cons p ps ih =>
    simp only [List.foldl_cons]
    by_cases hpk : (p.1 == k) = true
    · have hk : p.1 = k := by simpa [beq_iff_eq] using hpk
      have h2 : USP.recLookup k (USP.recInsert r p.1 p.2) = some (vs ++ [p.2]) := by
        rw [hk, recLookup_recInsert_same, h]
        rfl
      rw [ih _ (vs ++ [p.2]) h2, getAllVals_cons, if_pos hpk]
      simp
    · have h2 : USP.recLookup k (USP.recInsert r p.1 p.2) = some vs := by
        rw [recLookup_recInsert_other r k p.1 p.2 (by simpa using hpk)]
        exact h
      rw [ih _ vs h2, getAllVals_cons, if_neg (by simpa using hpk)]

theorem recLookup_foldl_none (ps : List (Str × Str))
    (r : List (Str × List Str)) (k : Str)
    (h : USP.recLookup k r = none) :
    USP.recLookup k (ps.foldl (fun r p => USP.recInsert r p.1 p.2) r) =
      (if USP.getAllVals k ps = [] then none else some (USP.getAllVals k ps)) := by
  induction ps generalizing r with
  | nil => simpa [USP.getAllVals] using h
  | cons p ps ih =>
    simp only [List.foldl_cons]
    by_cases hpk : (p.1 == k) = true
    · have hk : p.1 = k := by simpa [beq_iff_eq] using hpk
      have h2 : USP.recLookup k (USP.recInsert r p.1 p.2) = some [p.2] := by
        rw [hk, recLookup_recInsert_same, h]
        rfl
      rw [recLookup_foldl_some ps _ k [p.2] h2, getAllVals_cons, if_pos hpk]
      simp
    · have h2 : USP.recLookup k (USP.recInsert r p.1 p.2) = none := by
        rw [recLookup_recInsert_other r k p.1 p.2 (by simpa using hpk)]
        exact h
      have hpkf : (p.1 == k) = false := by simpa using hpk
      rw [ih _ h2, getAllVals_cons, hpkf]
      simp

theorem toRecord_lookup (ps : List (Str × Str)) (k : Str) :
    USP.recLookup k (USP.toRecord ps) =
      (if USP.getAllVals k ps = [] then none else some (USP.getAllVals k ps)) :=
  recLookup_foldl_none ps [] k rfl

/-- C6: `toRecord` maps each key occurring in the collection to the
non-empty sequence of that key's values in first-to-last encounter order
(`getAll` order), and keys with no occurrence are absent from the record —
never present with an empty sequence. -/
theorem c6_toRecord_groups (ps : List (Str × Str)) (k : Str) :
    (USP.getAllVals k ps = [] → USP.recLookup k (USP.toRecord ps) = none) ∧
      (USP.getAllVals k ps ≠ [] →
        USP.recLookup k (USP.toRecord ps) = some (USP.getAllVals k ps)) ∧
      (∀ vs, USP.recLookup k (USP.toRecord ps) = some vs → vs ≠ []) := by
  refine ⟨fun h => ?_, fun h => ?_, fun vs hvs => ?_⟩
  · rw [toRecord_lookup, if_pos h]
  · rw [toRecord_lookup, if_neg h]
  · rw [toRecord_lookup] at hvs
    by_cases h : USP.getAllVals k ps = []
    · simp [h] at hvs
    · simp only [if_neg h] at hvs
      cases hvs
      exact h

/-- C10: `lookupFirst` and `lookup` agree for every key and collection: both
are absent exactly together, and when the key is present `lookupFirst`
returns precisely the first element of `lookup`'s non-empty sequence. -/
theorem c10_lookupFirst_lookup (k : Str) (ps : List (Str × Str)) :
    (USP.lookupFirst k ps = none ↔ USP.lookup k ps = none) ∧
      ∀ l, USP.lookup k ps = some l → l ≠ [] ∧ USP.lookupFirst k ps = l.head? := by
  cases h : USP.getAllVals k ps with
  | nil =>
    refine ⟨by simp [USP.lookupFirst, USP.lookup, h], fun l hl => ?_⟩
    simp [USP.lookup, h] at hl
  | cons v vs =>
    refine ⟨by simp [USP.lookupFirst, USP.lookup, h], fun l hl => ?_⟩
    simp only [USP.lookup, h] at hl
    cases hl
    exact ⟨by simp, by simp [USP.lookupFirst, h]⟩

/-- C10 witness: over `"a=b&c=d1&c=d2"`, `lookup "c"` is `["d1","d2"]` and
`lookupFirst "c"` is its first element `"d1"`. -/
theorem c10_lookupFirst_lookup_witness :
    USP.lookup (strToL "c") (USP.fromString (strToL "a=b&c=d1&c=d2")) =
        some [strToL "d1", strToL "d2"] ∧
      USP.lookupFirst (strToL "c") (USP.fromString (strToL "a=b&c=d1&c=d2")) =
        some (strToL "d1") :=
  ⟨by decide,
   ((c10_lookupFirst_lookup (strToL "c")
      (USP.fromString (strToL "a=b&c=d1&c=d2"))).2
      [strToL "d1", strToL "d2"] (by decide)).2.trans (by decide)⟩

theorem recLookup_eq_none_iff (r : List (Str × List Str)) (k : Str) :
    USP.recLookup k r = none ↔ k ∉ r.map Prod.fst := by
  induction r with
  | nil => simp [USP.recLookup]
  | cons p rest ih =>
    by_cases h : (p.1 == k) = true
    · have hk : p.1 = k := by simpa [beq_iff_eq] using h
      subst hk
      simp [USP.recLookup]
    · have hne : p.1 ≠ k := by simpa [beq_iff_eq] using h
      rw [show USP.recLookup k (p :: rest) = USP.recLookup k rest from by
        simp [USP.recLookup, h], ih]
      simp only [List.map_cons, List.mem_cons, not_or]
      exact ⟨fun hnm => ⟨Ne.symm hne, hnm⟩, And.right⟩

theorem keys_recInsert (r : List (Str × List Str)) (k : Str) (v : Str) :
    (USP.recInsert r k v).map Prod.fst =
      if (USP.recLookup k r).isSome then r.map Prod.fst
      else r.map Prod.fst ++ [k] := by
  induction r with
  | nil => simp [USP.recInsert, USP.recLookup]
  | cons p rest ih =>
    by_cases h : (p.1 == k) = true
    · simp [USP.recInsert, USP.recLookup, h]
    · by_cases h2 : (USP.recLookup k rest).isSome = true
      · simp [USP.recInsert, USP.recLookup, h, h2, ih]
      · simp [USP.recInsert, USP.recLookup, h, h2, ih]

theorem nodup_keys_toRecord_aux (ps : List (Str × Str))
    (r : List (Str × List Str)) (h : (r.map Prod.fst).Nodup) :
    ((ps.foldl (fun r p => USP.recInsert r p.1 p.2) r).map Prod.fst).Nodup := by
  induction ps generalizing r with
  | nil => simpa
  | cons p ps ih =>
    simp only [List.foldl_cons]
    apply ih
    rw [keys_recInsert]
    by_cases h2 : (USP.recLookup p.1 r).isSome = true
    · simpa [h2]
    · have hnone : USP.recLookup p.1 r = none :=
        Option.not_isSome_iff_eq_none.mp (by simpa using h2)
      have hnmem : p.1 ∉ r.map Prod.fst := (recLookup_eq_none_iff r p.1).mp hnone
      simp only [h2, if_false]
      simp [List.nodup_append, h, hnmem]

theorem nodup_keys_toRecord (ps : List (Str × Str)) :
    ((USP.toRecord ps).map Prod.fst).Nodup :=
  nodup_keys_toRecord_aux ps [] (by simp)

theorem recLookup_of_mem (r : List (Str × List Str)) (p : Str × List Str)
    (hnd : (r.map Prod.fst).Nodup) (hmem : p ∈ r) :
    USP.recLookup p.1 r = some p.2 := by
  induction r with
  | nil => simp at hmem
  | cons q rest ih =>
    rcases List.mem_cons.mp hmem with rfl | hmem2
    · simp [USP.recLookup]
    · have hnd' : q.1 ∉ rest.map Prod.fst ∧ (rest.map Prod.fst).Nodup := by
        rw [List.map_cons, List.nodup_cons] at hnd
        exact hnd
      have hq : (q.1 == p.1) = false := by
        rw [beq_eq_false_iff_ne]
        intro he
        exact hnd'.1 (by rw [he]; exact List.mem_map_of_mem Prod.fst hmem2)
      rw [show USP.recLookup p.1 (q :: rest) = USP.recLookup p.1 rest from by
        simp [USP.recLookup, hq]]
      exact ih hnd'.2 hmem2

theorem mem_of_recLookup (r : List (Str × List Str)) (k : Str) (v : List Str)
    (h : USP.recLookup k r = some v) : (k, v) ∈ r := by
  induction r with
  | nil => simp [USP.recLookup] at h
  | cons p rest ih =>
    by_cases hpk : (p.1 == k) = true
    · have hk : p.1 = k := by simpa [beq_iff_eq] using hpk
      rw [show USP.recLookup k (p :: rest) = some p.2 from by
        simp [USP.recLookup, hpk]] at h
      cases h
      have hp : (k, p.2) = p := by
        cases p
        simp_all
      rw [hp]
      exact List.mem_cons_self _ _
    · rw [show USP.recLookup k (p :: rest) = USP.recLookup k rest from by
        simp [USP.recLookup, hpk]] at h
      exact List.mem_cons_of_mem _ (ih h)

theorem length_insSorted (s : Str) (l : List Str) :
    (USP.insSorted s l).length = l.length + 1 := by
  induction l with
  | nil => rfl
  | cons t ts ih =>
    by_cases h : USP.strLe s t = true <;> simp [USP.insSorted, h, ih]

theorem length_sortStrs (l : List Str) : (USP.sortStrs l).length = l.length := by
  induction l with
  | nil => rfl
  | cons s ts ih =>
    simp only [USP.sortStrs, List.foldr_cons] at *
    rw [length_insSorted, ih]
    simp

theorem sortStrs_eq_nil (l : List Str) : USP.sortStrs l = [] ↔ l = [] := by
  constructor <;> intro h
  · have hlen := length_sortStrs l
    rw [h] at hlen
    exact List.length_eq_zero.mp hlen.symm
  · rw [h]
    rfl

/-- C3 (amended): the `URLSearchParams` `Eq` instance equates two
collections iff their per-key-grouped value *multisets* agree: for every
key the two value sequences are equal after sorting, so the relative order
of pairs with different keys is ignored *and so is the order of values
sharing a key* (forced by `c3_usp_eq_cex`).  In particular
`fromString "a=1&b=2"` equals `fromString "b=2&a=1"`, and
`fromString "a=1&b=2&a=3"` differs from `fromString "a=1&b=2"`. -/
theorem c3_usp_eq_amended (x y : List (Str × Str)) :
    USP.eqEquals x y = true ↔
      ∀ k, USP.sortStrs (USP.getAllVals k x) = USP.sortStrs (USP.getAllVals k y) := by
  have hndx := nodup_keys_toRecord x
  have hndy := nodup_keys_toRecord y
  constructor
  · intro h k
    simp only [USP.eqEquals, USP.recEqBy, Bool.and_eq_true, USP.isSubrecordBy,
      List.all_eq_true] at h
    obtain ⟨hxy, hyx⟩ := h
    by_cases hx : USP.getAllVals k x = []
    · by_cases hy : USP.getAllVals k y = []
      · rw [hx, hy]
      · have hlky : USP.recLookup k (USP.toRecord y) = some (USP.getAllVals k y) := by
          rw [toRecord_lookup, if_neg hy]
        have hmem : (k, USP.getAllVals k y) ∈ USP.toRecord y :=
          mem_of_recLookup _ _ _ hlky
        have hcontra := hyx _ hmem
        rw [toRecord_lookup] at hcontra
        simp [hx] at hcontra
    · have hlkx : USP.recLookup k (USP.toRecord x) = some (USP.getAllVals k x) := by
        rw [toRecord_lookup, if_neg hx]
      have hmem : (k, USP.getAllVals k x) ∈ USP.toRecord x :=
        mem_of_recLookup _ _ _ hlkx
      have hx2 := hxy _ hmem
      rw [toRecord_lookup] at hx2
      by_cases hy : USP.getAllVals k y = []
      · simp [hy] at hx2
      · rw [if_neg hy] at hx2
        simpa [USP.disorderedEqStrs, beq_iff_eq] using hx2
  · intro h
    simp only [USP.eqEquals, USP.recEqBy, Bool.and_eq_true, USP.isSubrecordBy,
      List.all_eq_true]
    constructor
    · intro p hp
      have hlk := recLookup_of_mem _ p hndx hp
      rw [toRecord_lookup] at hlk
      by_cases hx : USP.getAllVals p.1 x = []
      · simp [hx] at hlk
      · rw [if_neg hx] at hlk
        have hval := Option.some.inj hlk
        have hy : USP.getAllVals p.1 y ≠ [] := by
          intro hy
          apply hx
          rw [← sortStrs_eq_nil]
          rw [h p.1, hy]
          rfl
        rw [toRecord_lookup, if_neg hy]
        simpa [USP.disorderedEqStrs, beq_iff_eq, ← hval] using h p.1
    · intro p hp
      have hlk := recLookup_of_mem _ p hndy hp
      rw [toRecord_lookup] at hlk
      by_cases hy : USP.getAllVals p.1 y = []
      · simp [hy] at hlk
      · rw [if_neg hy] at hlk
        have hval := Option.some.inj hlk
        have hx : USP.getAllVals p.1 x ≠ [] := by
          intro hx
          apply hy
          rw [← sortStrs_eq_nil]
          rw [← h p.1, hx]
          rfl
        rw [toRecord_lookup, if_neg hx]
        simpa [USP.disorderedEqStrs, beq_iff_eq, ← hval] using (h p.1).symm

/-- C3 counterexample: the `Eq` instance equates `a=1&a=3` with `a=3&a=1`
even though their per-key grouped value *sequences* (`["1","3"]` vs
`["3","1"]`) differ, so equality is not "first-to-last order of same-key
values must match" as the claim states; the spec-worded sequence-respecting
equality distinguishes the two. -/
theorem c3_usp_eq_cex :
    USP.eqEquals (USP.fromString (strToL "a=1&a=3"))
        (USP.fromString (strToL "a=3&a=1")) = true ∧
      USP.recLookup (strToL "a")
          (USP.toRecord (USP.fromString (strToL "a=1&a=3"))) =
        some [strToL "1", strToL "3"] ∧
      USP.recLookup (strToL "a")
          (USP.toRecord (USP.fromString (strToL "a=3&a=1"))) =
        some [strToL "3", strToL "1"] ∧
      USP.eqBySpecSequences (USP.fromString (strToL "a=1&a=3"))
        (USP.fromString (strToL "a=3&a=1")) = false := by
  decide

/-- C3 witness: the amended theorem applied at concrete collections:
from `a=1&b=2` equalling `b=2&a=1` it yields the agreement of the sorted
`"a"` values, and `a=1&b=2&a=3` cannot equal `a=1&b=2` because their sorted
`"a"` values differ. -/
theorem c3_usp_eq_witness :
    USP.sortStrs (USP.getAllVals (strToL "a") (USP.fromString (strToL "a=1&b=2"))) =
        USP.sortStrs (USP.getAllVals (strToL "a") (USP.fromString (strToL "b=2&a=1"))) ∧
      ¬ USP.eqEquals (USP.fromString (strToL "a=1&b=2&a=3"))
        (USP.fromString (strToL "a=1&b=2")) = true :=
  ⟨(c3_usp_eq_amended (USP.fromString (strToL "a=1&b=2"))
      (USP.fromString (strToL "b=2&a=1"))).mp (by decide) (strToL "a"),
   fun h => by
     have h2 := (c3_usp_eq_amended (USP.fromString (strToL "a=1&b=2&a=3"))
       (USP.fromString (strToL "a=1&b=2"))).mp h (strToL "a")
     revert h2
     decide⟩

theorem char_eq_of_toNat {c : Char} {n : Nat} (h : c.toNat = n) :
    c = Char.ofNat n := by
  rw [← h, Char.ofNat_toNat]

theorem hexVal_hexUp {n : Nat} (h : n < 16) : hexVal (hexUp n) = some n := by
  interval_cases n <;> decide

theorem hexUp_keep {n : Nat} (h : n < 16) : formKeepP (hexUp n).toNat := by
  interval_cases n <;> decide

theorem formDec_cons_plain (c : Char) (rest : Str)
    (h43 : c.toNat ≠ 43) (h37 : c.toNat ≠ 37) :
    USP.formDec (c :: rest) = c :: USP.formDec rest := by
  have hcon : ¬ (c.toNat = 37 ∧ USP.validEsc rest = true) := by
    rintro ⟨h, -⟩
    exact h37 h
  cases rest with
  | nil =>
    simp only [USP.formDec]
    rw [if_neg h43, if_neg hcon]
  | cons a rest' =>
    cases rest' with
    | nil =>
      simp only [USP.formDec]
      rw [if_neg h43, if_neg hcon]
    | cons b rest2 =>
      simp only [USP.formDec]
      rw [if_neg h43, if_neg hcon]

theorem formDec_cons_plus (rest : Str) :
    USP.formDec ('+' :: rest) = ' ' :: USP.formDec rest := by
  cases rest with
  | nil => decide
  | cons a rest' =>
    cases rest' with
    | nil =>
      simp only [USP.formDec]
      rw [if_pos (by decide : ('+' : Char).toNat = 43)]
    | cons b rest2 =>
      simp only [USP.formDec]
      rw [if_pos (by decide : ('+' : Char).toNat = 43)]

theorem formDec_encCh (c : Char) (rest : Str) :
    USP.formDec (USP.formEncCh c ++ rest) = c :: USP.formDec rest := by
  by_cases h32 : c.toNat = 32
  · have hc : c = ' ' := (char_eq_of_toNat h32).trans (by decide)
    subst hc
    rw [show USP.formEncCh ' ' = ['+'] from by decide]
    show USP.formDec ('+' :: rest) = ' ' :: USP.formDec rest
    rw [formDec_cons_plus]
  · by_cases hkeep : (formKeepCh c || decide (128 ≤ c.toNat)) = true
    · have hc : USP.formEncCh c = [c] := by
        rw [USP.formEncCh, if_neg h32, if_pos hkeep]
      have hfacts : c.toNat ≠ 43 ∧ c.toNat ≠ 37 := by
        rcases Bool.or_eq_true_iff.mp hkeep with hk | hk
        · have := of_decide_eq_true hk
          omega
        · have := of_decide_eq_true hk
          omega
      rw [hc, List.cons_append, List.nil_append,
        formDec_cons_plain c rest hfacts.1 hfacts.2]
    · have hlt : c.toNat < 128 := by
        by_contra hge
        refine hkeep (Bool.or_eq_true_iff.mpr (Or.inr ?_))
        simp only [decide_eq_true_iff]
        omega
      have hhi : c.toNat / 16 < 16 := by omega
      have hlo : c.toNat % 16 < 16 := by omega
      have hc : USP.formEncCh c = pctEncode c := by
        rw [USP.formEncCh, if_neg h32, if_neg (by simpa using hkeep)]
      rw [hc]
      simp only [pctEncode, List.cons_append, List.nil_append, USP.formDec]
      rw [if_neg (by decide : ¬ ('%' : Char).toNat = 43)]
      rw [if_pos ?hcond]
      case hcond =>
        refine ⟨by decide, ?_⟩
        simp [USP.validEsc, hexVal_hexUp hhi, hexVal_hexUp hlo]
      simp only [USP.escVal, hexVal_hexUp hhi, hexVal_hexUp hlo, Option.getD_some]
      rw [show 16 * (c.toNat / 16) + c.toNat % 16 = c.toNat from by omega,
        Char.ofNat_toNat]
      simp

theorem formDec_formEnc (s : Str) : USP.formDec (USP.formEnc s) = s := by
  induction s with
  | nil => rfl
  | cons c cs ih =>
    rw [show USP.formEnc (c :: cs) = USP.formEncCh c ++ USP.formEnc cs from by
      simp [USP.formEnc]]
    rw [formDec_encCh, ih]

theorem formEncCh_out (c : Char) : ∀ d ∈ USP.formEncCh c, formEncOutP d.toNat := by
  intro d hd
  by_cases h32 : c.toNat = 32
  · rw [USP.formEncCh, if_pos h32] at hd
    simp only [List.mem_singleton] at hd
    subst hd
    decide
  · by_cases hkeep : (formKeepCh c || decide (128 ≤ c.toNat)) = true
    · rw [USP.formEncCh, if_neg h32, if_pos hkeep] at hd
      simp only [List.mem_singleton] at hd
      subst hd
      rcases Bool.or_eq_true_iff.mp hkeep with hk | hk
      · exact Or.inl (of_decide_eq_true hk)
      · have := of_decide_eq_true hk
        omega
    · have hlt : c.toNat < 128 := by
        by_contra hge
        refine hkeep (Bool.or_eq_true_iff.mpr (Or.inr ?_))
        simp only [decide_eq_true_iff]
        omega
      rw [USP.formEncCh, if_neg h32, if_neg (by simpa using hkeep)] at hd
      simp only [pctEncode, List.mem_cons, List.mem_singleton] at hd
      rcases hd with rfl | rfl | (rfl | h)
      · decide
      · exact Or.inl (hexUp_keep (by omega))
      · exact Or.inl (hexUp_keep (by omega))
      · simp at h

theorem formEnc_out (s : Str) : ∀ d ∈ USP.formEnc s, formEncOutP d.toNat := by
  induction s with
  | nil => simp [USP.formEnc]
  | cons c cs ih =>
    intro d hd
    rw [show USP.formEnc (c :: cs) = USP.formEncCh c ++ USP.formEnc cs from by
      simp [USP.formEnc]] at hd
    rcases List.mem_append.mp hd with h | h
    · exact formEncCh_out c d h
    · exact ih d h

theorem serPair_out (p : Str × Str) :
    ∀ d ∈ USP.serPair p, formEncOutP d.toNat ∨ d.toNat = 61 := by
  intro d hd
  rcases List.mem_append.mp hd with h | h
  · exact Or.inl (formEnc_out _ d h)
  · rcases List.mem_cons.mp h with rfl | h2
    · right
      decide
    · exact Or.inl (formEnc_out _ d h2)

theorem joinAmp_out (l : List Str)
    (hl : ∀ s ∈ l, ∀ d ∈ s, formOutP d.toNat) :
    ∀ d ∈ USP.joinAmp l, formOutP d.toNat := by
  induction l with
  | nil => simp [USP.joinAmp]
  | cons s rest ih =>
    cases rest with
    | nil =>
      intro d hd
      exact hl s (by simp) d hd
    | cons t rest2 =>
      intro d hd
      rw [show USP.joinAmp (s :: t :: rest2) = s ++ '&' :: USP.joinAmp (t :: rest2)
        from rfl] at hd
      rcases List.mem_append.mp hd with h | h
      · exact hl s (by simp) d h
      · rcases List.mem_cons.mp h with rfl | h2
        · right
          right
          decide
        · exact ih (fun x hx => hl x (by simp [hx])) d h2

theorem uspToString_out (ps : List (Str × Str)) :
    ∀ d ∈ USP.toString ps, formOutP d.toNat := by
  refine joinAmp_out _ ?_
  intro s hs
  rcases List.mem_map.mp hs with ⟨p, -, rfl⟩
  intro d hd
  rcases serPair_out p d hd with h | h
  · exact Or.inl h
  · exact Or.inr (Or.inl h)

theorem queryEncodeStr_id (s : Str) (h : ∀ c ∈ s, inQuerySet c = false) :
    URLM.queryEncodeStr s = s := by
  induction s with
  | nil => rfl
  | cons c cs ih =>
    rw [show URLM.queryEncodeStr (c :: cs) =
      URLM.encodeQueryCh c ++ URLM.queryEncodeStr cs from by
        simp [URLM.queryEncodeStr]]
    rw [show URLM.encodeQueryCh c = [c] from by
      simp [URLM.encodeQueryCh, h c (by simp)]]
    rw [ih (fun x hx => h x (by simp [hx]))]
    rfl

theorem serPair_ne_nil (p : Str × Str) : USP.serPair p ≠ [] := by
  rw [USP.serPair]
  intro h
  rcases List.append_eq_nil.mp h with ⟨-, h2⟩
  cases h2

theorem uspToString_nil_iff (ps : List (Str × Str)) :
    USP.toString ps = [] ↔ ps = [] := by
  constructor
  · intro h
    cases ps with
    | nil => rfl
    | cons p rest =>
      exfalso
      cases rest with
      | nil => exact serPair_ne_nil p (by simpa [USP.toString, USP.joinAmp] using h)
      | cons q rest2 =>
        rw [show USP.toString (p :: q :: rest2) =
          USP.serPair p ++ '&' :: USP.joinAmp (USP.serPair q :: rest2.map USP.serPair)
          from rfl] at h
        rcases List.append_eq_nil.mp h with ⟨-, h2⟩
        cases h2
  · intro h
    rw [h]
    rfl

theorem breakEq_append (k v : Str) (hk : ∀ c ∈ k, c.toNat ≠ 61) :
    USP.breakEq (k ++ '=' :: v) = (k, v) := by
  induction k with
  | nil =>
    simp only [List.nil_append, USP.breakEq]
    rw [if_pos (by decide : ('=' : Char).toNat = 61)]
  | cons c cs ih =>
    simp only [List.cons_append, USP.breakEq, List.append_eq]
    rw [if_neg (hk c (by simp))]
    rw [ih (fun x hx => hk x (by simp [hx]))]

theorem splitSep_no (sep : Char) (s : Str) (h : ∀ c ∈ s, c ≠ sep) :
    USP.splitSep sep s = [s] := by
  induction s with
  | nil => rfl
  | cons c cs ih =>
    simp only [USP.splitSep]
    rw [if_neg (h c (by simp))]
    rw [ih (fun x hx => h x (by simp [hx]))]

theorem splitSep_append (sep : Char) (s rest : Str) (h : ∀ c ∈ s, c ≠ sep) :
    USP.splitSep sep (s ++ sep :: rest) = s :: USP.splitSep sep rest := by
  induction s with
  | nil =>
    simp only [List.nil_append, USP.splitSep]
    simp
  | cons c cs ih =>
    simp only [List.cons_append, USP.splitSep, List.append_eq]
    rw [if_neg (h c (by simp))]
    rw [ih (fun x hx => h x (by simp [hx]))]

theorem serPair_no_amp (p : Str × Str) : ∀ c ∈ USP.serPair p, c ≠ '&' := by
  intro c hc he
  have h := serPair_out p c hc
  have h38 : c.toNat = 38 := by
    rw [he]
    decide
  rw [h38] at h
  revert h
  decide

theorem splitSep_joinAmp_pieces (p : Str) (l : List Str)
    (hp : ∀ c ∈ p, c ≠ '&') (hl : ∀ s ∈ l, ∀ c ∈ s, c ≠ '&') :
    USP.splitSep '&' (USP.joinAmp (p :: l)) = p :: l := by
  induction l generalizing p with
  | nil => exact splitSep_no '&' p hp
  | cons t rest ih =>
    rw [show USP.joinAmp (p :: t :: rest) = p ++ '&' :: USP.joinAmp (t :: rest)
      from rfl]
    rw [splitSep_append '&' p _ hp]
    rw [ih t (hl t (by simp)) (fun s hs => hl s (by simp [hs]))]

theorem formEnc_no_eq (s : Str) : ∀ c ∈ USP.formEnc s, c.toNat ≠ 61 := by
  intro c hc
  have h := formEnc_out s c hc
  omega

theorem serPair_isEmpty (p : Str × Str) : (USP.serPair p).isEmpty = false := by
  cases hsp : USP.serPair p with
  | nil => exact absurd hsp (serPair_ne_nil p)
  | cons a b => rfl

theorem parse_serPair (q : Str × Str) :
    (if (USP.serPair q).isEmpty then none
     else some (USP.formDec (USP.breakEq (USP.serPair q)).1,
       USP.formDec (USP.breakEq (USP.serPair q)).2)) = some q := by
  rw [serPair_isEmpty]
  simp only [Bool.false_eq_true, if_false]
  rw [show USP.breakEq (USP.serPair q) = (USP.formEnc q.1, USP.formEnc q.2) from
    breakEq_append _ _ (formEnc_no_eq q.1)]
  simp [formDec_formEnc]

theorem parseQSRaw_toString (ps : List (Str × Str)) :
    USP.parseQSRaw (USP.toString ps) = ps := by
  cases ps with
  | nil => rfl
  | cons p rest =>
    rw [USP.parseQSRaw, USP.toString, List.map_cons]
    rw [splitSep_joinAmp_pieces (USP.serPair p) (rest.map USP.serPair)
      (serPair_no_amp p) ?hrest]
    case hrest =>
      intro s hs
      rcases List.mem_map.mp hs with ⟨q, -, rfl⟩
      exact serPair_no_amp q
    rw [show USP.serPair p :: rest.map USP.serPair = (p :: rest).map USP.serPair
      from by simp]
    induction (p :: rest) with
    | nil => rfl
    | cons q qs ih =>
      rw [List.map_cons, List.filterMap_cons]
      rw [show (if (USP.serPair q).isEmpty = true then none
        else some (USP.formDec (USP.breakEq (USP.serPair q)).1,
          USP.formDec (USP.breakEq (USP.serPair q)).2)) = some q from parse_serPair q]
      rw [ih]

theorem stripQm_toString (ps : List (Str × Str)) :
    USP.stripQm (USP.toString ps) = USP.toString ps := by
  cases hts : USP.toString ps with
  | nil => rfl
  | cons a b =>
    have ha := uspToString_out ps a (by rw [hts]; simp)
    have h63 : a.toNat ≠ 63 := by
      intro h
      rw [h] at ha
      revert ha
      decide
    simp only [USP.stripQm]
    rw [if_neg h63]

theorem queryEncode_toString (ps : List (Str × Str)) :
    URLM.queryEncodeStr (USP.toString ps) = USP.toString ps := by
  refine queryEncodeStr_id _ ?_
  intro c hc
  have h := uspToString_out ps c hc
  simp only [inQuerySet, decide_eq_false_iff_not]
  omega

theorem getParams_setParams (ps : List (Str × Str)) (u : URLM.URLRec) :
    URLM.getParams (URLM.setParams ps u) = ps := by
  rw [URLM.setParams, URLM.setSearch]
  by_cases h : (USP.toString ps).isEmpty = true
  · have hnil : USP.toString ps = [] := by
      cases hts : USP.toString ps with
      | nil => rfl
      | cons a b =>
        rw [hts] at h
        cases h
    have hps : ps = [] := (uspToString_nil_iff ps).mp hnil
    rw [if_pos h]
    simp [URLM.getParams, hps]
  · rw [if_neg h]
    simp only [URLM.getParams]
    rw [stripQm_toString, queryEncode_toString, parseQSRaw_toString]

theorem setSearch_fields (s : Str) (w : URLM.URLRec) :
    (URLM.setSearch s w).scheme = w.scheme ∧ (URLM.setSearch s w).host = w.host ∧
      (URLM.setSearch s w).port = w.port ∧
      (URLM.setSearch s w).segments = w.segments ∧
      (URLM.setSearch s w).fragment = w.fragment := by
  rw [URLM.setSearch]
  by_cases h : s.isEmpty = true
  · rw [if_pos h]
    exact ⟨rfl, rfl, rfl, rfl, rfl⟩
  · rw [if_neg h]
    exact ⟨rfl, rfl, rfl, rfl, rfl⟩

theorem setHash_fields (s : Str) (w : URLM.URLRec) :
    (URLM.setHash s w).scheme = w.scheme ∧ (URLM.setHash s w).host = w.host ∧
      (URLM.setHash s w).port = w.port ∧
      (URLM.setHash s w).segments = w.segments ∧
      (URLM.setHash s w).query = w.query := by
  rw [URLM.setHash]
  by_cases h : s.isEmpty = true
  · rw [if_pos h]
    exact ⟨rfl, rfl, rfl, rfl, rfl⟩
  · rw [if_neg h]
    exact ⟨rfl, rfl, rfl, rfl, rfl⟩

theorem hashGet_setHash (u w : URLM.URLRec) (hf : URLM.wfFrag u.fragment = true) :
    URLM.hashGet (URLM.setHash (URLM.hashGet u) w) = URLM.hashGet u := by
  rcases hu : u.fragment with _ | fv
  · simp [URLM.hashGet, hu, URLM.setHash]
  · cases fv with
    | nil => simp [URLM.hashGet, hu, URLM.setHash]
    | cons a as =>
      have hga : URLM.hashGet u = '#' :: a :: as := by
        simp [URLM.hashGet, hu]
      rw [hga, URLM.setHash, if_neg (by simp)]
      have hstrip : URLM.stripHash ('#' :: a :: as) = a :: as := by
        simp only [URLM.stripHash]
        rw [if_pos (by decide : ('#' : Char).toNat = 35)]
      rw [hstrip]
      have hfall : ∀ c ∈ (a :: as), URLM.goodFragCh c = true := by
        rw [hu] at hf
        simpa [URLM.wfFrag, List.all_eq_true] using hf
      rw [fragEncodeStr_id _ hfall]
      simp [URLM.hashGet]

theorem setPathSegs_pathSer (segs : List Str) (h : URLM.wfSegs segs = true) :
    URLM.setPathSegs (URLM.pathSer segs) = segs := by
  cases segs with
  | nil => simp [URLM.wfSegs] at h
  | cons s ss =>
    simp only [URLM.wfSegs, Bool.and_eq_true, Bool.not_eq_true',
      List.all_eq_true] at h
    obtain ⟨-, hall⟩ := h
    have hs := hall s (by simp)
    have hss : ∀ t ∈ ss, URLM.wfSeg t = true := fun t ht => hall t (by simp [ht])
    have hst := pathLoop_stable false ss s [] [] hs hss (Or.inl rfl)
    rw [List.append_nil] at hst
    rw [URLM.setPathSegs, pathSer_cons, List.cons_append]
    simp only [URLM.pathStart]
    rw [if_pos (by decide : ('/' : Char).toNat = 47 ∨ ('/' : Char).toNat = 92)]
    rw [hst]
    simp

/-- C4: `toURL onError base x` parses `base` as an absolute URL; when the
parse fails (e.g. `"samhh.com"`, lacking a scheme) it returns the failure
value `onError` produces from the `TypeError` — never a crash, the function
being total — and when `base` parses to `b` it returns a URL agreeing with
`b` on scheme, host and port, with pathname, query params and hash
overwritten from `x`. -/
theorem c4_toURL_spec {E : Type} (f : URLM.TypeErrorV → E) (base : Str)
    (u : URLM.URLRec) (h : URLPath.wfURLPathRep u = true) :
    (URLM.parseURL base = none →
      URLPath.toURL f base u = .error (f URLM.urlTypeError)) ∧
      (∀ b, URLM.parseURL base = some b →
        ∃ r, URLPath.toURL f base u = .ok r ∧
          r.scheme = b.scheme ∧ r.host = b.host ∧ r.port = b.port ∧
          r.segments = u.segments ∧
          URLM.getPathname r = URLM.getPathname u ∧
          URLM.getParams r = URLM.getParams u ∧
          URLM.getHash r = URLM.getHash u) := by
  simp only [URLPath.wfURLPathRep, Bool.and_eq_true, beq_iff_eq] at h
  obtain ⟨⟨⟨⟨⟨-, -⟩, -⟩, hsegs⟩, -⟩, hfrag⟩ := h
  constructor
  · intro hp
    rw [URLPath.toURL, URLM.parseE, hp]
    rfl
  · intro b hp
    rw [URLPath.toURL, URLM.parseE, hp]
    refine ⟨_, rfl, ?_, ?_, ?_, ?_, ?_, ?_, ?_⟩
    all_goals {
      have hw1segs : (URLM.setPathname (URLPath.getPathname u) b).segments =
          u.segments := by
        show URLM.setPathSegs (URLM.pathSer u.segments) = u.segments
        exact setPathSegs_pathSer u.segments hsegs
      have hsp := setSearch_fields
        (USP.toString (URLPath.getParams u))
        (URLM.setPathname (URLPath.getPathname u) b)
      have hsh := setHash_fields (URLPath.getHash u)
        (URLM.setParams (URLPath.getParams u)
          (URLM.setPathname (URLPath.getPathname u) b))
      first
      | exact hsh.1.trans hsp.1
      | exact hsh.2.1.trans hsp.2.1
      | exact hsh.2.2.1.trans hsp.2.2.1
      | exact (hsh.2.2.2.1.trans hsp.2.2.2.1).trans hw1segs
      | {
          show URLM.pathSer _ = URLM.pathSer u.segments
          rw [(hsh.2.2.2.1.trans hsp.2.2.2.1).trans hw1segs]
        }
      | {
          rw [show URLM.getParams (URLM.setHash (URLPath.getHash u)
              (URLM.setParams (URLPath.getParams u)
                (URLM.setPathname (URLPath.getPathname u) b))) =
            URLM.getParams (URLM.setParams (URLPath.getParams u)
                (URLM.setPathname (URLPath.getPathname u) b)) from by
            simp only [URLM.getParams, hsh.2.2.2.2]]
          exact getParams_setParams _ _
        }
      | exact hashGet_setHash u _ hfrag
    }

/-- C4 witness: the invalid base `"samhh.com"` (no scheme) yields the
propagated error value, and the valid base `"https://samhh.com"` yields a
URL with the base's origin and `fromPathname "/foo"`'s components. -/
theorem c4_toURL_spec_witness :
    URLPath.toURL (fun e => e) (strToL "samhh.com")
        (URLPath.fromPathname (strToL "foo")) = .error URLM.urlTypeError ∧
      ∃ r, URLPath.toURL (fun e => e) (strToL "https://samhh.com")
          (URLPath.fromPathname (strToL "/foo")) = .ok r ∧
        r.scheme = strToL "https" ∧ r.host = strToL "samhh.com" ∧
        r.port = none ∧
        r.segments = (URLPath.fromPathname (strToL "/foo")).segments ∧
        URLM.getPathname r =
          URLM.getPathname (URLPath.fromPathname (strToL "/foo")) ∧
        URLM.getParams r =
          URLM.getParams (URLPath.fromPathname (strToL "/foo")) ∧
        URLM.getHash r = URLM.getHash (URLPath.fromPathname (strToL "/foo")) :=
  ⟨(c4_toURL_spec (fun e => e) (strToL "samhh.com")
      (URLPath.fromPathname (strToL "foo")) (by decide)).1 (by decide),
   (c4_toURL_spec (fun e => e) (strToL "https://samhh.com")
      (URLPath.fromPathname (strToL "/foo")) (by decide)).2
     ⟨strToL "https", strToL "samhh.com", none, [[]], none, none⟩ (by decide)⟩

theorem getLast?_ne_nil (l : Str) (h : l ≠ []) : ∃ d, l.getLast? = some d := by
  induction l with
  | nil => exact absurd rfl h
  | cons a as ih =>
    cases as with
    | nil => exact ⟨a, rfl⟩
    | cons b bs =>
      obtain ⟨d, hd⟩ := ih (by simp)
      exact ⟨d, by rw [List.getLast?_cons_cons, hd]⟩

/-- C5: every NonEmptyString endomorphism of the module preserves the
length ≥ 1 invariant: on non-empty input, `head` and `last` succeed with a
single non-empty character (so the unwrap step cannot fail), and
`toUpperCase`, `toLowerCase`, `prepend`, `append`, `surround`, `reverse`
and the `Semigroup` concatenation all return non-empty strings. -/
theorem c5_nes_endomorphisms (s t p : Str) (hs : s ≠ []) (_ht : t ≠ []) :
    (∃ c, NES.strHead s = some c ∧ c ≠ []) ∧
      (∃ c, NES.strLast s = some c ∧ c ≠ []) ∧
      NES.toUpperCase s ≠ [] ∧ NES.toLowerCase s ≠ [] ∧
      NES.prepend p s ≠ [] ∧ NES.append p s ≠ [] ∧ NES.surround p s ≠ [] ∧
      NES.reverse s ≠ [] ∧ NES.concat s t ≠ [] := by
  obtain ⟨c, cs, rfl⟩ := List.exists_cons_of_ne_nil hs
  obtain ⟨d, hd⟩ := getLast?_ne_nil (c :: cs) (by simp)
  refine ⟨⟨[c], rfl, by simp⟩, ⟨[d], ?_, by simp⟩, by simp [NES.toUpperCase],
    by simp [NES.toLowerCase], ?_, by simp [NES.append], ?_,
    by simp [NES.reverse], by simp [NES.concat]⟩
  · rw [NES.strLast, hd]
  · rw [NES.prepend]
    intro hcon
    exact absurd (List.append_eq_nil.mp hcon).2 (by simp)
  · rw [NES.surround]
    intro hcon
    rcases List.append_eq_nil.mp hcon with ⟨h1, -⟩
    exact absurd (List.append_eq_nil.mp h1).2 (by simp)

/-- C5 witness: the invariant-preservation facts at `"ab"`, `"cd"` and
`"!"`. -/
theorem c5_nes_endomorphisms_witness :
    (∃ c, NES.strHead (strToL "ab") = some c ∧ c ≠ []) ∧
      NES.surround (strToL "!") (strToL "ab") ≠ [] ∧
      NES.concat (strToL "ab") (strToL "cd") ≠ [] :=
  ⟨(c5_nes_endomorphisms (strToL "ab") (strToL "cd") (strToL "!")
      (by decide) (by decide)).1,
   (c5_nes_endomorphisms (strToL "ab") (strToL "cd") (strToL "!")
      (by decide) (by decide)).2.2.2.2.2.2.1,
   (c5_nes_endomorphisms (strToL "ab") (strToL "cd") (strToL "!")
      (by decide) (by decide)).2.2.2.2.2.2.2.2⟩

/-- C8: `NonEmptyString.fromString` returns an absent result exactly on the
empty string, and otherwise wraps its input unchanged: the unwrap of the
result is the input itself. -/
theorem c8_nes_fromString (s : Str) :
    (NES.fromString s = none ↔ s = []) ∧
      (s ≠ [] → NES.fromString s = some s) := by
  constructor
  · cases s with
    | nil => simp [NES.fromString]
    | cons c cs => simp [NES.fromString]
  · intro h
    cases s with
    | nil => exact absurd rfl h
    | cons c cs => simp [NES.fromString]

/-- C8 witness: `fromString ""` is absent; `fromString "x"` wraps `"x"`. -/
theorem c8_nes_fromString_witness :
    NES.fromString (strToL "") = none ∧
      NES.fromString (strToL "x") = some (strToL "x") :=
  ⟨(c8_nes_fromString (strToL "")).1.mpr rfl,
   (c8_nes_fromString (strToL "x")).2 (by decide)⟩

theorem jsonEscCh_len (c : Char) : 1 ≤ (NES.jsonEscCh c).length := by
  rw [NES.jsonEscCh]
  split
  · simp
  · split
    · simp
    · split
      · simp
      · split
        · simp
        · split
          · simp
          · split
            · simp
            · split
              · simp
              · split
                · simp
                · simp

theorem flatten_jsonEsc_len (s : Str) :
    s.length ≤ ((s.map NES.jsonEscCh).flatten).length := by
  induction s with
  | nil => simp
  | cons c cs ih =>
    simp only [List.map_cons, List.flatten_cons, List.length_append,
      List.length_cons]
    have := jsonEscCh_len c
    omega

theorem flatten_map_id (f : Char → Str) (s : Str) (h : ∀ c ∈ s, f c = [c]) :
    (s.map f).flatten = s := by
  induction s with
  | nil => rfl
  | cons c cs ih =>
    simp only [List.map_cons, List.flatten_cons, h c (by simp)]
    rw [ih (fun x hx => h x (by simp [hx]))]
    rfl

/-- C9 (amended): the `Show` instance renders the unwrapped string as a
JSON string literal — `JSON.stringify` output: wrapped in double quotes,
with `"`, `\` and control characters escaped — and therefore never
verbatim; on strings containing no escapable character the rendering is
exactly the unwrapped string surrounded by double quotes. -/
theorem c9_nes_show_json (s : Str) :
    NES.showNES s ≠ s ∧
      ((∀ c ∈ s, NES.jsonEscCh c = [c]) →
        NES.showNES s = '"' :: s ++ ['"']) := by
  constructor
  · intro h
    have hlen : (NES.showNES s).length = s.length := by rw [h]
    have hexp : (NES.showNES s).length =
        ((s.map NES.jsonEscCh).flatten).length + 2 := by
      simp [NES.showNES, NES.jsonStringify]
    have hge := flatten_jsonEsc_len s
    omega
  · intro h
    rw [NES.showNES, NES.jsonStringify, flatten_map_id _ _ h]

/-- C9 counterexample: `Show.show` applied to the string `"x"` does not
return `"x"` verbatim (it returns it quoted). -/
theorem c9_nes_show_cex : NES.showNES (strToL "x") ≠ strToL "x" := by decide

/-- C9 witness: at `"x"` the rendering is exactly the quoted string. -/
theorem c9_nes_show_json_witness :
    NES.showNES (strToL "x") ≠ strToL "x" ∧
      NES.showNES (strToL "x") = '"' :: strToL "x" ++ ['"'] :=
  ⟨(c9_nes_show_json (strToL "x")).1,
   (c9_nes_show_json (strToL "x")).2 (by decide)⟩

theorem hexUp_goodSeg {n : Nat} (h : n < 16) : URLM.goodSegCh (hexUp n) = true := by
  interval_cases n <;> decide

theorem hexUp_goodQuery {n : Nat} (h : n < 16) :
    URLM.goodQueryCh (hexUp n) = true := by
  interval_cases n <;> decide

theorem hexUp_goodFrag {n : Nat} (h : n < 16) :
    URLM.goodFragCh (hexUp n) = true := by
  interval_cases n <;> decide

theorem encodePathCh_all_good {c : Char} (h47 : c.toNat ≠ 47)
    (h92 : c.toNat ≠ 92) :
    ∀ d ∈ URLM.encodePathCh c, URLM.goodSegCh d = true := by
  intro d hd
  rw [URLM.encodePathCh] at hd
  by_cases hp : inPathSet c = true
  · rw [if_pos hp] at hd
    have hlt : c.toNat < 128 := by
      have := of_decide_eq_true hp
      omega
    simp only [pctEncode, List.mem_cons, List.mem_singleton] at hd
    rcases hd with rfl | rfl | (rfl | hfalse)
    · decide
    · exact hexUp_goodSeg (by omega)
    · exact hexUp_goodSeg (by omega)
    · simp at hfalse
  · rw [if_neg hp] at hd
    simp only [List.mem_singleton] at hd
    subst hd
    have hnp : ¬ pathSetP d.toNat := by
      intro hcon
      exact hp (by simpa [inPathSet] using hcon)
    rw [URLM.goodSegCh]
    exact decide_eq_true ⟨hnp, h47, h92⟩

theorem wfSeg_nil : URLM.wfSeg [] = true := by decide

theorem flushSeg_all_wf (acc : List Str) (buf : Str) (atSep : Bool)
    (hbuf : ∀ c ∈ buf, URLM.goodSegCh c = true)
    (hacc : ∀ t ∈ acc, URLM.wfSeg t = true) :
    ∀ t ∈ URLM.flushSeg acc buf atSep, URLM.wfSeg t = true := by
  intro t ht
  rw [URLM.flushSeg] at ht
  by_cases hdd : URLM.isDoubleDotSeg buf = true
  · rw [if_pos hdd] at ht
    by_cases hsep : atSep = true
    · rw [if_pos hsep] at ht
      exact hacc t (List.dropLast_subset _ ht)
    · rw [if_neg hsep] at ht
      rcases List.mem_append.mp ht with h | h
      · exact hacc t (List.dropLast_subset _ h)
      · simp only [List.mem_singleton] at h
        subst h
        exact wfSeg_nil
  · rw [if_neg hdd] at ht
    by_cases hsd : URLM.isSingleDotSeg buf = true
    · rw [if_pos hsd] at ht
      by_cases hsep : atSep = true
      · rw [if_pos hsep] at ht
        exact hacc t ht
      · rw [if_neg hsep] at ht
        rcases List.mem_append.mp ht with h | h
        · exact hacc t h
        · simp only [List.mem_singleton] at h
          subst h
          exact wfSeg_nil
    · rw [if_neg hsd] at ht
      rcases List.mem_append.mp ht with h | h
      · exact hacc t h
      · simp only [List.mem_singleton] at h
        subst h
        simp only [URLM.wfSeg, Bool.and_eq_true, List.all_eq_true,
          Bool.not_eq_true']
        exact ⟨⟨hbuf, by simpa using hdd⟩, by simpa using hsd⟩

theorem flushSeg_atEnd_ne_nil (acc : List Str) (buf : Str) :
    URLM.flushSeg acc buf false ≠ [] := by
  rw [URLM.flushSeg]
  by_cases hdd : URLM.isDoubleDotSeg buf = true
  · rw [if_pos hdd, if_neg (by simp)]
    simp
  · rw [if_neg hdd]
    by_cases hsd : URLM.isSingleDotSeg buf = true
    · rw [if_pos hsd, if_neg (by simp)]
      simp
    · rw [if_neg hsd]
      simp

theorem pathLoop_wf (stop : Bool) (cs buf : Str) (acc : List Str)
    (hbuf : ∀ c ∈ buf, URLM.goodSegCh c = true)
    (hacc : ∀ t ∈ acc, URLM.wfSeg t = true) :
    (∀ t ∈ (URLM.pathLoop stop cs buf acc).1, URLM.wfSeg t = true) ∧
      (URLM.pathLoop stop cs buf acc).1 ≠ [] := by
  induction cs generalizing buf acc with
  | nil =>
    exact ⟨flushSeg_all_wf acc buf false hbuf hacc, flushSeg_atEnd_ne_nil acc buf⟩
  | cons c cs ih =>
    by_cases h1 : c.toNat = 47 ∨ c.toNat = 92
    · rw [show URLM.pathLoop stop (c :: cs) buf acc =
        URLM.pathLoop stop cs [] (URLM.flushSeg acc buf true) from by
          simp [URLM.pathLoop, h1]]
      exact ih [] _ (by simp) (flushSeg_all_wf acc buf true hbuf hacc)
    · by_cases h2 : stop = true ∧ (c.toNat = 63 ∨ c.toNat = 35)
      · rw [show URLM.pathLoop stop (c :: cs) buf acc =
          (URLM.flushSeg acc buf false, c :: cs) from by
            simp [URLM.pathLoop, h1, h2.1, h2.2]]
        exact ⟨flushSeg_all_wf acc buf false hbuf hacc,
          flushSeg_atEnd_ne_nil acc buf⟩
      · rw [show URLM.pathLoop stop (c :: cs) buf acc =
          URLM.pathLoop stop cs (buf ++ URLM.encodePathCh c) acc from by
            simp only [URLM.pathLoop]
            rw [if_neg h1, if_neg h2]]
        refine ih _ _ ?_ hacc
        intro d hd
        rcases List.mem_append.mp hd with h | h
        · exact hbuf d h
        · exact encodePathCh_all_good (fun hc => h1 (Or.inl hc))
            (fun hc => h1 (Or.inr hc)) d h

theorem encodeQueryCh_all_good (c : Char) :
    ∀ d ∈ URLM.encodeQueryCh c, URLM.goodQueryCh d = true := by
  intro d hd
  rw [URLM.encodeQueryCh] at hd
  by_cases hq : inQuerySet c = true
  · rw [if_pos hq] at hd
    have hlt : c.toNat < 128 := by
      have := of_decide_eq_true hq
      omega
    simp only [pctEncode, List.mem_cons, List.mem_singleton] at hd
    rcases hd with rfl | rfl | (rfl | hfalse)
    · decide
    · exact hexUp_goodQuery (by omega)
    · exact hexUp_goodQuery (by omega)
    · simp at hfalse
  · rw [if_neg hq] at hd
    simp only [List.mem_singleton] at hd
    subst hd
    rw [URLM.goodQueryCh]
    exact decide_eq_true fun hcon => hq (by simpa [inQuerySet] using hcon)

theorem queryLoop_wf (cs acc : Str)
    (hacc : ∀ c ∈ acc, URLM.goodQueryCh c = true) :
    ∀ c ∈ (URLM.queryLoop cs acc).1, URLM.goodQueryCh c = true := by
  induction cs generalizing acc with
  | nil => simpa [URLM.queryLoop] using hacc
  | cons c cs ih =>
    by_cases h : c.toNat = 35
    · rw [show URLM.queryLoop (c :: cs) acc = (acc, c :: cs) from by
        simp [URLM.queryLoop, h]]
      exact hacc
    · rw [show URLM.queryLoop (c :: cs) acc =
        URLM.queryLoop cs (acc ++ URLM.encodeQueryCh c) from by
          simp [URLM.queryLoop, h]]
      refine ih _ ?_
      intro d hd
      rcases List.mem_append.mp hd with hm | hm
      · exact hacc d hm
      · exact encodeQueryCh_all_good c d hm

theorem fragEncodeStr_wf (s : Str) :
    ∀ d ∈ URLM.fragEncodeStr s, URLM.goodFragCh d = true := by
  induction s with
  | nil => simp [URLM.fragEncodeStr]
  | cons c cs ih =>
    intro d hd
    rw [fragEncodeStr_cons] at hd
    rcases List.mem_append.mp hd with h | h
    · by_cases hf : inFragmentSet c = true
      · rw [if_pos hf] at h
        have hlt : c.toNat < 128 := by
          have := of_decide_eq_true hf
          omega
        simp only [pctEncode, List.mem_cons, List.mem_singleton] at h
        rcases h with rfl | rfl | (rfl | hfalse)
        · decide
        · exact hexUp_goodFrag (by omega)
        · exact hexUp_goodFrag (by omega)
        · simp at hfalse
      · rw [if_neg hf] at h
        simp only [List.mem_singleton] at h
        subst h
        rw [URLM.goodFragCh]
        exact decide_eq_true fun hcon => hf (by simpa [inFragmentSet] using hcon)
    · exact ih d h

theorem pathLoop_wfSegs (stop : Bool) (ds : Str) :
    URLM.wfSegs (URLM.pathLoop stop ds [] []).1 = true := by
  obtain ⟨hall, hne⟩ := pathLoop_wf stop ds [] [] (by simp) (by simp)
  rw [URLM.wfSegs, Bool.and_eq_true]
  refine ⟨?_, List.all_eq_true.mpr hall⟩
  cases hres : (URLM.pathLoop stop ds [] []).1 with
  | nil => exact absurd hres hne
  | cons a as => rfl

theorem pathStart_wfSegs (stop : Bool) (cs : Str) :
    URLM.wfSegs (URLM.pathStart stop cs).1 = true := by
  cases cs with
  | nil => exact pathLoop_wfSegs stop []
  | cons c rest =>
    simp only [URLM.pathStart]
    by_cases h : c.toNat = 47 ∨ c.toNat = 92
    · rw [if_pos h]
      exact pathLoop_wfSegs stop rest
    · rw [if_neg h]
      exact pathLoop_wfSegs stop (c :: rest)

/-- `fromPathname` establishes the representation invariant. -/
theorem fromPathname_wf (x : Str) :
    URLPath.wfURLPathRep (URLPath.fromPathname x) = true := by
  have hseg := pathStart_wfSegs false x
  simp [URLPath.wfURLPathRep, URLPath.fromPathname, URLM.setPathname,
    URLPath.phonyBase, URLM.setPathSegs, hseg, URLM.wfQuery, URLM.wfFrag]

theorem assemblePQF_wf (sch hst : Str) (port : Option Nat)
    (pr : List Str × Str) (hseg : URLM.wfSegs pr.1 = true) (u : URLM.URLRec)
    (hu : URLM.assemblePQF sch hst port pr = some u) :
    u.scheme = sch ∧ u.host = hst ∧ u.port = port ∧
      URLM.wfSegs u.segments = true ∧ URLM.wfQuery u.query = true ∧
      URLM.wfFrag u.fragment = true := by
  rw [URLM.assemblePQF] at hu
  cases hrest : pr.2 with
  | nil =>
    simp only [hrest] at hu
    obtain rfl := Option.some.inj hu
    exact ⟨rfl, rfl, rfl, hseg, rfl, rfl⟩
  | cons c cs =>
    simp only [hrest] at hu
    by_cases hc : c.toNat = 63
    · rw [if_pos hc] at hu
      have hq : URLM.wfQuery (some (URLM.queryLoop cs []).1) = true := by
        rw [URLM.wfQuery]
        exact List.all_eq_true.mpr (queryLoop_wf cs [] (by simp))
      cases hq2 : (URLM.queryLoop cs []).2 with
      | nil =>
        simp only [hq2] at hu
        obtain rfl := Option.some.inj hu
        exact ⟨rfl, rfl, rfl, hseg, hq, rfl⟩
      | cons d ds =>
        simp only [hq2] at hu
        obtain rfl := Option.some.inj hu
        refine ⟨rfl, rfl, rfl, hseg, hq, ?_⟩
        rw [URLM.wfFrag]
        exact List.all_eq_true.mpr (fragEncodeStr_wf ds)
    · rw [if_neg hc] at hu
      obtain rfl := Option.some.inj hu
      refine ⟨rfl, rfl, rfl, hseg, rfl, ?_⟩
      rw [URLM.wfFrag]
      exact List.all_eq_true.mpr (fragEncodeStr_wf cs)

theorem parseAfterHost_wf (sch hst cs : Str) (u : URLM.URLRec)
    (hp : URLM.parseAfterHost sch hst cs = some u) :
    u.scheme = sch ∧ URLM.wfSegs u.segments = true ∧
      URLM.wfQuery u.query = true ∧ URLM.wfFrag u.fragment = true := by
  cases cs with
  | nil =>
    obtain ⟨h1, -, -, h4, h5, h6⟩ :=
      assemblePQF_wf sch hst none _ (pathStart_wfSegs true []) u hp
    exact ⟨h1, h4, h5, h6⟩
  | cons c rest =>
    simp only [URLM.parseAfterHost] at hp
    by_cases hc : c.toNat = 58
    · rw [if_pos hc] at hp
      cases hpp : URLM.parsePort sch rest with
      | none =>
        rw [hpp] at hp
        cases hp
      | some pr =>
        rw [hpp] at hp
        obtain ⟨h1, -, -, h4, h5, h6⟩ :=
          assemblePQF_wf sch hst pr.1 _ (pathStart_wfSegs true pr.2) u hp
        exact ⟨h1, h4, h5, h6⟩
    · rw [if_neg hc] at hp
      obtain ⟨h1, -, -, h4, h5, h6⟩ :=
        assemblePQF_wf sch hst none _ (pathStart_wfSegs true (c :: rest)) u hp
      exact ⟨h1, h4, h5, h6⟩

theorem parseAfterScheme_wf (sch cs : Str) (u : URLM.URLRec)
    (hp : URLM.parseAfterScheme sch cs = some u) :
    u.scheme = sch ∧ URLM.wfSegs u.segments = true ∧
      URLM.wfQuery u.query = true ∧ URLM.wfFrag u.fragment = true := by
  match cs with
  | [] => cases hp
  | [c1] => cases hp
  | [c1, c2] => cases hp
  | c1 :: c2 :: c3 :: rest =>
    simp only [URLM.parseAfterScheme] at hp
    by_cases hc : c1.toNat = 58 ∧ c2.toNat = 47 ∧ c3.toNat = 47
    · rw [if_pos hc] at hp
      by_cases hh : URLM.hostOk (scanWhile isHostCh rest).1 = true
      · rw [if_pos hh] at hp
        exact parseAfterHost_wf sch _ _ u hp
      · rw [if_neg hh] at hp
        cases hp
    · rw [if_neg hc] at hp
      cases hp

theorem parseURL_phonyPrefix (x : Str) :
    URLM.parseURL (URLPath.phonyOriginStr ++ x) =
      URLM.parseAfterScheme (strToL "https")
        (':' :: '/' :: '/' :: (strToL "urlpath.fp-ts-std.samhh.com" ++ x)) := by
  have hsplit : URLPath.phonyOriginStr ++ x =
      strToL "https" ++ (':' :: '/' :: '/' ::
        (strToL "urlpath.fp-ts-std.samhh.com" ++ x)) := by
    have h0 : URLPath.phonyOriginStr =
        strToL "https" ++ (':' :: '/' :: '/' ::
          strToL "urlpath.fp-ts-std.samhh.com") := by decide
    rw [h0]
    simp [List.append_assoc]
  rw [hsplit]
  simp only [URLM.parseURL]
  rw [scanWhile_all_append isSchemeCh (strToL "https") _ (by decide)
    (Or.inr ⟨':', _, rfl, by decide⟩)]
  simp only []
  rw [if_pos (by decide : URLM.schemeOk (strToL "https") = true)]
  rw [show lowerStr (strToL "https") = strToL "https" from by decide]

theorem phony_origin_fields (u : URLM.URLRec)
    (hsch : u.scheme = strToL "https")
    (h : URLM.originStr u = URLPath.phonyOriginStr) :
    u.host = strToL "urlpath.fp-ts-std.samhh.com" ∧ u.port = none := by
  rw [URLM.originStr, hsch] at h
  have h0 : URLPath.phonyOriginStr =
      (strToL "https" ++ strToL "://") ++ strToL "urlpath.fp-ts-std.samhh.com" := by
    decide
  rw [h0] at h
  have h2 : u.host ++ URLM.portSer u.port =
      strToL "urlpath.fp-ts-std.samhh.com" := by
    have h1 : (strToL "https" ++ strToL "://") ++ (u.host ++ URLM.portSer u.port) =
        (strToL "https" ++ strToL "://") ++ strToL "urlpath.fp-ts-std.samhh.com" := by
      rw [← h]
      simp [List.append_assoc]
    exact List.append_cancel_left h1
  cases hport : u.port with
  | none =>
    rw [hport] at h2
    simp only [URLM.portSer, List.append_nil] at h2
    exact ⟨h2, rfl⟩
  | some n =>
    exfalso
    rw [hport] at h2
    have hmem : ':' ∈ u.host ++ URLM.portSer (some n) := by
      simp [URLM.portSer]
    rw [h2] at hmem
    revert hmem
    decide

theorem fromStringO_wf (x : Str) (u : URLM.URLRec)
    (h : URLPath.fromStringO x = some u) :
    URLPath.wfURLPathRep u = true := by
  have hfall : ∀ w, URLM.parseURL (URLPath.phonyOriginStr ++ '/' :: x) = some w →
      URLPath.wfURLPathRep w = true := by
    intro w hw
    rw [parseURL_phonySlash] at hw
    obtain ⟨h1, h2, h3, h4, h5, h6⟩ :=
      assemblePQF_wf _ _ _ _ (pathLoop_wfSegs true x) w hw
    simp [URLPath.wfURLPathRep, h1, h2, h3, h4, h5, h6]
  rw [URLPath.fromStringO] at h
  cases h1 : URLM.parseURL (URLPath.phonyOriginStr ++ x) with
  | none =>
    simp only [h1] at h
    exact hfall u h
  | some v =>
    simp only [h1] at h
    by_cases hb : URLPath.hasPhonyBase v = true
    · rw [if_pos hb] at h
      obtain rfl := Option.some.inj h
      rw [parseURL_phonyPrefix] at h1
      obtain ⟨hsch, hws, hwq, hwf⟩ := parseAfterScheme_wf _ _ v h1
      have horig : URLM.originStr v = URLPath.phonyOriginStr := by
        simpa [URLPath.hasPhonyBase, beq_iff_eq] using hb
      obtain ⟨hhost, hport⟩ := phony_origin_fields v hsch horig
      simp [URLPath.wfURLPathRep, hsch, hhost, hport, hws, hwq, hwf]
    · rw [if_neg hb] at h
      exact hfall u h

/-- `fromString` establishes the representation invariant: the kept first
resolution has the placeholder origin by the filter and normalized
components by parsing; the fallback constructs them outright. -/
theorem fromString_wf (x : Str) :
    URLPath.wfURLPathRep (URLPath.fromString x) = true := by
  rw [URLPath.fromString]
  cases h : URLPath.fromStringO x with
  | none =>
    simp only [h, Option.getD_none]
    decide
  | some u =>
    simp only [h, Option.getD_some]
    exact fromStringO_wf x u h
